import Mathlib

/-!
TCP port scanner: a verification development.

A shallow embedding of `src/tcp_port_scanner/port_scanner.cpp`.

* `std::string` is a list of characters (`List Char`).  The port parser only
  distinguishes the ASCII characters `,`, `-`, `+`, blanks and the ten digits,
  so a multi-byte character behaves like any other inert byte sequence.
* `int` is a 32-bit two's complement integer (the program is Windows-only);
  values are carried as `Int` and the places where the width matters
  (`std::stoi`, the conversion to `size_t`, the narrowing to `long`) are
  explicit.
* `std::set<int>` is the strictly ascending list of its elements.
* Exceptions are the `Except.error` results.
-/

namespace PortScanner

/-! ## `std::stoi` -/

/-- The two exceptions `std::stoi` throws. -/
inductive StoiError where
  | invalid_argument
  | out_of_range
  deriving DecidableEq, Repr

/-- Largest `int`. -/
def INT_MAX : Int := 2147483647

/-- Smallest `int`. -/
def INT_MIN : Int := -2147483648

/-- C `isspace` in the "C" locale: space, `\t`, `\n`, `\v`, `\f`, `\r`. -/
def isSpace (c : Char) : Bool :=
  c.toNat = 32 || (9 ≤ c.toNat && c.toNat ≤ 13)

/-- C `isdigit`. -/
def isDigit (c : Char) : Bool :=
  48 ≤ c.toNat && c.toNat ≤ 57

/-- Value of a decimal digit character. -/
def digitVal (c : Char) : Nat := c.toNat - 48

/-- Accumulates decimal digits left to right, as `strtol` does. -/
def digitsValue (acc : Nat) : List Char → Nat
  | [] => acc
  | c :: cs => digitsValue (10 * acc + digitVal c) cs

/-- The function `std::stoi(str)` (base 10, no position output): skips leading
white space, reads an optional sign, then the longest run of digits; whatever
follows is ignored.  Throws `invalid_argument` when there is no digit to read
and `out_of_range` when the value is not an `int`. -/
def stoi (str : List Char) : Except StoiError Int :=
  let s := str.dropWhile isSpace
  let (neg, s) :=
    match s with
    | '-' :: r => (true, r)
    | '+' :: r => (false, r)
    | _ => (false, s)
  let ds := s.takeWhile isDigit
  if ds = [] then .error .invalid_argument
  else
    let v : Int := if neg then -(digitsValue 0 ds : Int) else (digitsValue 0 ds : Int)
    if v < INT_MIN ∨ INT_MAX < v then .error .out_of_range else .ok v

deriving instance DecidableEq for Except

/-! ## `std::set<int>` -/

/-- The call `portSet.insert(p)` on the ascending element list of the set. -/
def setInsert (p : Int) : List Int → List Int
  | [] => [p]
  | q :: qs =>
    if p < q then p :: q :: qs
    else if p = q then q :: qs
    else q :: setInsert p qs

/-! ## `parsePorts` -/

/-- The characters removed by the trim step: `" \t"`. -/
def isBlank (c : Char) : Bool := c = ' ' || c = '\t'

/-- The two `erase` calls at the top of the loop body: leading, then trailing
spaces and tabs are removed (an all-blank token becomes empty). -/
def trim (token : List Char) : List Char :=
  ((token.dropWhile isBlank).reverse.dropWhile isBlank).reverse

/-- The call `token.find(c)`: index of the first occurrence. -/
def findChar (c : Char) : List Char → Option Nat
  | [] => none
  | d :: ds => if d = c then some 0 else (findChar c ds).map (· + 1)

/-- The loop `for (int p = lo; p <= hi; p++) portSet.insert(p);`, with the
number of remaining iterations as fuel. -/
def insertLoop : Nat → Int → Int → List Int → List Int
  | 0, _, _, portSet => portSet
  | fuel + 1, p, hi, portSet =>
    if p ≤ hi then insertLoop fuel (p + 1) hi (setInsert p portSet) else portSet

/-- One iteration of the `while (std::getline(ss, token, ','))` body: trims the
token and adds the ports it denotes to `portSet`. -/
def processToken (token : List Char) (portSet : List Int) : Except StoiError (List Int) :=
  let token := trim token
  match findChar '-' token with
  | some dash => do
    let lo ← stoi (token.take dash)
    let hi ← stoi (token.drop (dash + 1))
    let (lo, hi) := if lo > hi then (hi, lo) else (lo, hi)
    let lo := max 1 lo
    let hi := min 65535 hi
    pure (insertLoop (hi + 1 - lo).toNat lo hi portSet)
  | none => do
    let p ← stoi token
    if p ≥ 1 ∧ p ≤ 65535 then pure (setInsert p portSet) else pure portSet

/-- The extraction step of `std::getline`: the characters before the first
delimiter (or all of them) and what is left after the delimiter. -/
def extractUntil (delim : Char) : List Char → List Char × List Char
  | [] => ([], [])
  | c :: cs =>
    if c = delim then ([], cs)
    else (c :: (extractUntil delim cs).1, (extractUntil delim cs).2)

/-- One call `std::getline(ss, token, delim)` on the unread rest of the
stream: it fails when nothing is left to read, otherwise it extracts the
characters up to the next delimiter (or the end) and consumes the delimiter. -/
def getline (delim : Char) : List Char → Option (List Char × List Char)
  | [] => none
  | c :: cs => some (extractUntil delim (c :: cs))

/-- The tokens read by the successive `std::getline(ss, token, ',')` calls of the
loop until the call fails; `cur` holds the characters of the token being read,
latest first. -/
def getlineTokensAux : List Char → List Char → List (List Char)
  | cur, [] => if cur = [] then [] else [cur.reverse]
  | cur, c :: cs =>
    if c = ',' then cur.reverse :: getlineTokensAux [] cs
    else getlineTokensAux (c :: cur) cs

/-- All tokens the loop of `parsePorts` reads from the specification. -/
def getlineTokens (spec : List Char) : List (List Char) :=
  getlineTokensAux [] spec

/-- The loop of `parsePorts` over the tokens read, threading `portSet`; the
first exception ends it. -/
def parseLoop : List (List Char) → List Int → Except StoiError (List Int)
  | [], portSet => .ok portSet
  | token :: rest, portSet =>
    match processToken token portSet with
    | .ok portSet' => parseLoop rest portSet'
    | .error e => .error e

/-- The function `parsePorts(spec)`: the ascending contents of `portSet` once
every token is processed, or the exception of the first failing token. -/
def parsePorts (spec : List Char) : Except StoiError (List Int) :=
  parseLoop (getlineTokens spec) []

/-! ## Results, configuration and the service table -/

/-- The struct `ScanResult` (`open` is spelled `isOpen`; banners are byte
strings). -/
structure ScanResult where
  port : Int
  isOpen : Bool
  responseTimeMs : Int
  service : String
  banner : List Nat
  deriving DecidableEq, Repr

/-- A value-initialised `ScanResult`, as `g_results.resize` creates it. -/
instance : Inhabited ScanResult := ⟨⟨0, false, 0, "", []⟩⟩

/-- The struct `ScanConfig` with its default member initialisers. -/
structure ScanConfig where
  target : String := ""
  resolvedIP : String := ""
  ports : List Int := []
  timeout : Int := 2000
  threads : Int := 100
  grabBanner : Bool := true
  verboseMode : Bool := false
  outputFile : String := ""
  deriving Repr

/-- The table `SERVICES`. -/
def SERVICES : List (Int × String) :=
  [(21, "FTP"), (22, "SSH"), (23, "Telnet"), (25, "SMTP"), (53, "DNS"), (67, "DHCP"),
   (68, "DHCP"), (69, "TFTP"), (80, "HTTP"), (110, "POP3"), (111, "RPC"), (119, "NNTP"),
   (123, "NTP"), (135, "MSRPC"), (137, "NetBIOS"), (138, "NetBIOS"), (139, "NetBIOS-SSN"),
   (143, "IMAP"), (161, "SNMP"), (179, "BGP"), (194, "IRC"), (389, "LDAP"), (443, "HTTPS"),
   (445, "SMB"), (465, "SMTPS"), (514, "Syslog"), (515, "LPD"), (587, "SMTP-TLS"),
   (636, "LDAPS"), (993, "IMAPS"), (995, "POP3S"), (1080, "SOCKS"), (1194, "OpenVPN"),
   (1433, "MSSQL"), (1521, "Oracle-DB"), (1723, "PPTP"), (2049, "NFS"), (2375, "Docker"),
   (2376, "Docker-TLS"), (3000, "HTTP-Dev"), (3306, "MySQL"), (3389, "RDP"),
   (4444, "Metasploit"), (5000, "HTTP-Flask"), (5432, "PostgreSQL"), (5900, "VNC"),
   (5985, "WinRM-HTTP"), (5986, "WinRM-HTTPS"), (6379, "Redis"), (6443, "Kubernetes"),
   (7001, "WebLogic"), (8000, "HTTP-Alt"), (8080, "HTTP-Proxy"), (8443, "HTTPS-Alt"),
   (8888, "Jupyter"), (9000, "PHP-FPM"), (9090, "Prometheus"), (9200, "Elasticsearch"),
   (9300, "Elasticsearch"), (10250, "Kubelet"), (27017, "MongoDB"), (27018, "MongoDB"),
   (50000, "SAP")]

/-- The lookup `SERVICES.find(port)` with the default `"unknown"`. -/
def serviceName (port : Int) : String :=
  match SERVICES.find? (fun e => e.1 = port) with
  | some e => e.2
  | none => "unknown"

/-! ## `grabBanner` -/

/-- What the operating system answers to the calls of one `grabBanner`. -/
structure BannerAnswers where
  /-- Whether `socket` returned something else than `INVALID_SOCKET`. -/
  socketOk : Bool
  /-- Return value of `connect`. -/
  connectResult : Int
  /-- Return value of `recv`. -/
  received : Int
  /-- Contents of `buf` after `recv`. -/
  buf : List Nat
  deriving Repr

/-- A byte read as the (signed) `char` the loop compares. -/
def toSignedChar (b : Nat) : Int :=
  if b % 256 < 128 then (b % 256 : Nat) else ((b % 256 : Nat) : Int) - 256

/-- The loop `for (char c : banner)`: CR and LF become one space, the other
bytes are kept when `c >= 32 && c < 127`. -/
def cleanBytes : List Nat → List Nat
  | [] => []
  | b :: bs =>
    if toSignedChar b = 10 ∨ toSignedChar b = 13 then 32 :: cleanBytes bs
    else if 32 ≤ toSignedChar b ∧ toSignedChar b < 127 then b :: cleanBytes bs
    else cleanBytes bs

/-- The call `clean.find_last_not_of(' ')`; `none` is `npos`. -/
def findLastNotOf (c : Nat) : List Nat → Option Nat
  | [] => none
  | b :: bs =>
    match findLastNotOf c bs with
    | some i => some (i + 1)
    | none => if b = c then none else some 0

/-- The clean-up of the received bytes (the body of `if (received > 0)`). -/
def sanitizeBanner (banner : List Nat) : List Nat :=
  let clean := cleanBytes banner
  let clean :=
    match findLastNotOf 32 clean with
    | some e => clean.take (e + 1)
    | none => clean
  if clean.length > 80 then clean.take 80 ++ [46, 46, 46] else clean

/-- The function `grabBanner(ip, port, timeoutMs)`. -/
def grabBanner (os : BannerAnswers) (_ip : String) (_port : Int) (_timeoutMs : Int) :
    List Nat :=
  if os.socketOk = false then []
  else if os.connectResult ≠ 0 then []
  else if os.received > 0 then sanitizeBanner (os.buf.take os.received.toNat)
  else []

/-! ## `scanPort` -/

/-- What the operating system answers to the calls of one `scanPort`. -/
structure ProbeAnswers where
  /-- Whether `socket` returned something else than `INVALID_SOCKET`. -/
  socketOk : Bool
  /-- The reading `steady_clock::now()` before `connect`, in nanoseconds. -/
  startTime : Int
  /-- The reading `steady_clock::now()` after `select`, in nanoseconds. -/
  endTime : Int
  /-- Return value of `select`. -/
  sel : Int
  /-- The value `FD_ISSET(sock, &wset)` after `select`. -/
  inWset : Bool
  /-- The value of `error` after `getsockopt(..., SO_ERROR, ...)`. -/
  soError : Int
  /-- The answers to the banner grab that follows an open port. -/
  banner : BannerAnswers
  deriving Repr

/-- Width of `long` on Windows. -/
def longBits : Nat := 32

/-- Conversion of a `long long` to `long` (two's complement wrap-around). -/
def toLong (x : Int) : Int :=
  (x + 2 ^ (longBits - 1)) % 2 ^ longBits - 2 ^ (longBits - 1)

/-- The call `duration_cast<milliseconds>(endTime - startTime).count()` on
nanosecond readings: the quotient truncated toward zero. -/
def elapsedMs (startTime endTime : Int) : Int :=
  (endTime - startTime).tdiv 1000000

/-- The function `scanPort(ip, port, cfg)`; the atomic counter `g_openCount`
is passed in and returned. -/
def scanPort (os : ProbeAnswers) (ip : String) (port : Int) (cfg : ScanConfig)
    (g_openCount : Int) : ScanResult × Int :=
  let service := serviceName port
  if os.socketOk = false then
    ({ port := port, isOpen := false, banner := [], service := service,
       responseTimeMs := -1 }, g_openCount)
  else
    let responseTimeMs := toLong (elapsedMs os.startTime os.endTime)
    let (isOpen, g_openCount) :=
      if os.sel > 0 ∧ os.inWset = true then
        if os.soError = 0 then (true, g_openCount + 1) else (false, g_openCount)
      else (false, g_openCount)
    let banner :=
      if isOpen = true ∧ cfg.grabBanner = true then
        grabBanner os.banner ip port (cfg.timeout.tdiv 2)
      else []
    ({ port := port, isOpen := isOpen, banner := banner, service := service,
       responseTimeMs := responseTimeMs }, g_openCount)

/-! ## `ThreadPool` and `runScan` -/

/-- The closure `[&cfg, port, idx]` that `runScan` enqueues. -/
structure Task where
  idx : Nat
  port : Int
  deriving DecidableEq, Repr

/-- Where a worker thread of the pool stands. -/
inductive Worker where
  /-- In `cond_.wait`, or about to enter it. -/
  | waiting
  /-- Holds a popped task and is about to run `scanPort`. -/
  | running (t : Task)
  /-- The call `scanPort` returned `res`; `g_scanned++` comes next. -/
  | scanned (t : Task) (res : ScanResult)
  /-- The counter `g_scanned` is incremented; the store to `g_results[idx]` comes next. -/
  | counted (t : Task) (res : ScanResult)
  /-- Left the loop through `if (stop_ && tasks_.empty()) return;`. -/
  | exited
  deriving DecidableEq, Repr

/-- The shared state of one `runScan`: the pool's members, the loop variable of
`runScan` and the globals. -/
structure PoolState where
  /-- Loop variable `i` of the enqueue loop. -/
  next : Nat
  stop_ : Bool
  tasks_ : List Task
  workers_ : List Worker
  g_results : List ScanResult
  g_scanned : Int
  g_openCount : Int
  g_totalPorts : Int
  deriving Repr

/-- Conversion of a `size_t` to `int`. -/
def toInt32 (x : Int) : Int :=
  (x + 2 ^ 31) % 2 ^ 32 - 2 ^ 31

/-- Conversion of an `int` to a `size_t` of `sizeBits` bits. -/
def toSizeT (sizeBits : Nat) (x : Int) : Nat :=
  (x % 2 ^ sizeBits).toNat

/-- The constructor `ThreadPool(size_t numThreads)`: it starts `numThreads`
workers. -/
def ThreadPool (numThreads : Nat) : List Worker :=
  List.replicate numThreads Worker.waiting

/-- The statements of `runScan` before the enqueue loop: the globals are
reset and the pool is built from `std::min(cfg.threads, g_totalPorts)`. -/
def runScanInit (sizeBits : Nat) (cfg : ScanConfig) : PoolState :=
  let g_totalPorts := toInt32 cfg.ports.length
  let numThreads := min cfg.threads g_totalPorts
  { next := 0
    stop_ := false
    tasks_ := []
    workers_ := ThreadPool (toSizeT sizeBits numThreads)
    g_results := List.replicate (toSizeT sizeBits g_totalPorts) default
    g_scanned := 0
    g_openCount := 0
    g_totalPorts := g_totalPorts }

/-- The atomic actions of the threads of one scan. -/
inductive Action where
  /-- The main thread runs one iteration of the enqueue loop. -/
  | enqueue
  /-- The main thread, past the loop, sets `stop_` in the destructor. -/
  | shutdown
  /-- Worker `k` takes its next step. -/
  | worker (k : Nat)
  deriving DecidableEq, Repr

/-- One step of worker `k`, which stands at `w`; `none` when it is blocked in
`cond_.wait` or has exited. -/
def workerStep (cfg : ScanConfig) (os : Nat → ProbeAnswers) (s : PoolState) (k : Nat) :
    Worker → Option PoolState
  | .waiting =>
    match s.tasks_ with
    | t :: rest => some { s with tasks_ := rest, workers_ := s.workers_.set k (.running t) }
    | [] =>
      if s.stop_ = true then some { s with workers_ := s.workers_.set k .exited } else none
  | .running t =>
    let r := scanPort (os t.idx) cfg.resolvedIP t.port cfg s.g_openCount
    some { s with g_openCount := r.2, workers_ := s.workers_.set k (.scanned t r.1) }
  | .scanned t res =>
    some { s with g_scanned := s.g_scanned + 1, workers_ := s.workers_.set k (.counted t res) }
  | .counted t res =>
    some { s with g_results := s.g_results.set t.idx res,
                  workers_ := s.workers_.set k .waiting }
  | .exited => none

/-- One atomic action on the shared state; `none` when the action cannot be
taken in `s`. -/
def step (cfg : ScanConfig) (os : Nat → ProbeAnswers) (s : PoolState) :
    Action → Option PoolState
  | .enqueue =>
    if (s.next : Int) < s.g_totalPorts then
      some { s with tasks_ := s.tasks_ ++ [⟨s.next, cfg.ports.getD s.next 0⟩],
                    next := s.next + 1 }
    else none
  | .shutdown =>
    if ¬ ((s.next : Int) < s.g_totalPorts) ∧ s.stop_ = false then
      some { s with stop_ := true }
    else none
  | .worker k =>
    match s.workers_.get? k with
    | some w => workerStep cfg os s k w
    | none => none

/-- Runs a schedule: the actions are taken in order, one that cannot be taken
is skipped. -/
def runSchedule (cfg : ScanConfig) (os : Nat → ProbeAnswers) :
    PoolState → List Action → PoolState
  | s, [] => s
  | s, a :: rest =>
    match step cfg os s a with
    | some s' => runSchedule cfg os s' rest
    | none => runSchedule cfg os s rest

/-- The destructor's joins are over, so `runScan` has returned: `stop_` is set
and every worker has left its loop. -/
def returned (s : PoolState) : Bool :=
  s.stop_ && s.workers_.all (fun w => decide (w = Worker.exited))

/-- Number of entries of `g_results` with `open` set. -/
def openEntries (results : List ScanResult) : Nat :=
  results.countP (fun r => r.isOpen)

/-! ## Auxiliary definitions used in the statements -/

/-- The ascending integers `lo, lo + 1, ..., hi` (empty when `hi < lo`). -/
def intsFromTo (lo hi : Int) : List Int :=
  (List.range (hi + 1 - lo).toNat).map (fun (k : Nat) => lo + (k : Int))

/-- The inclusive interval of ports a token contributes, as `processToken`
computes it: the clamped range of a `lo-hi` token, `(p, p)` for an accepted
single port and the empty interval `(1, 0)` for a dropped one. -/
def tokenBounds (token : List Char) : Except StoiError (Int × Int) :=
  let token := trim token
  match findChar '-' token with
  | some dash =>
    match stoi (token.take dash) with
    | .error e => .error e
    | .ok lo =>
      match stoi (token.drop (dash + 1)) with
      | .error e => .error e
      | .ok hi => .ok (max 1 (min lo hi), min 65535 (max lo hi))
  | none =>
    match stoi token with
    | .error e => .error e
    | .ok p => if 1 ≤ p ∧ p ≤ 65535 then .ok (p, p) else .ok (1, 0)

/-- The tokens joined by `,` into one specification. -/
def joinTokens : List (List Char) → List Char
  | [] => []
  | [t] => t
  | t :: t' :: rest => t ++ ',' :: joinTokens (t' :: rest)

/-- The clamp of a bound to the port interval: `min(65535, max(1, x))`. -/
def clampPort (x : Int) : Int := min 65535 (max 1 x)

/-- The ports the specification's wording gives a range token: the ascending
integers between the two clamped bounds. -/
def claimedRange (lo hi : Int) : List Int :=
  intsFromTo (clampPort (min lo hi)) (clampPort (max lo hi))

/-- A non-empty string of decimal digits. -/
def allDigits (s : List Char) : Bool := !s.isEmpty && s.all isDigit

/-- A numeric token in the specification's words: after trimming, a non-empty
string of digits or two such strings joined by a single `-`. -/
def isNumericToken (token : List Char) : Bool :=
  let t := trim token
  match findChar '-' t with
  | some dash => allDigits (t.take dash) && allDigits (t.drop (dash + 1))
  | none => allDigits t

/-- Whether a string starts with a number as `std::stoi` reads one: after
white space and an optional sign comes a digit. -/
def startsWithNumber (s : List Char) : Bool :=
  match s.dropWhile isSpace with
  | [] => false
  | c :: rest =>
    if c = '-' ∨ c = '+' then
      match rest with
      | [] => false
      | d :: _ => isDigit d
    else isDigit c

/-- A token in which a number is missing where `parsePorts` reads one: the
trimmed token itself when it has no `-`, otherwise the part before the first
`-` or the part after it. -/
def lacksNumber (token : List Char) : Bool :=
  let t := trim token
  match findChar '-' t with
  | some dash => !startsWithNumber (t.take dash) || !startsWithNumber (t.drop (dash + 1))
  | none => !startsWithNumber t

/-- A probe whose socket could not be created (the clock readings are equal). -/
def socketFailure : ProbeAnswers :=
  ⟨false, 0, 0, 0, false, 0, ⟨false, 0, 0, []⟩⟩

/-- The state of a scan after the threads have taken the actions of a
schedule, starting from the state `runScan` sets up. -/
def runScan (sizeBits : Nat) (cfg : ScanConfig) (os : Nat → ProbeAnswers)
    (sched : List Action) : PoolState :=
  runSchedule cfg os (runScanInit sizeBits cfg) sched

/-- The unit of work `runScan` enqueues in iteration `i`. -/
def mkTask (cfg : ScanConfig) (i : Nat) : Task := ⟨i, cfg.ports.getD i 0⟩

/-- The result of the unit for `ports[i]`: what `scanPort` returns for it. -/
def unitResult (cfg : ScanConfig) (os : Nat → ProbeAnswers) (i : Nat) : ScanResult :=
  (scanPort (os i) cfg.resolvedIP (cfg.ports.getD i 0) cfg 0).1

/-- A worker holds only units popped so far, unchanged, and a result it holds
is the result of its unit. -/
def Worker.ok (cfg : ScanConfig) (os : Nat → ProbeAnswers) (p : Nat) : Worker → Prop
  | .waiting => True
  | .running t => t.idx < p ∧ t = mkTask cfg t.idx
  | .scanned t r => t.idx < p ∧ t = mkTask cfg t.idx ∧ r = unitResult cfg os t.idx
  | .counted t r => t.idx < p ∧ t = mkTask cfg t.idx ∧ r = unitResult cfg os t.idx
  | .exited => True

/-- The worker holds unit `i`, whose result is not stored yet. -/
def Worker.holds (i : Nat) : Worker → Prop
  | .running t => t.idx = i
  | .scanned t _ => t.idx = i
  | .counted t _ => t.idx = i
  | _ => False

/-- Counts a worker whose unit is not yet counted in `g_scanned`. -/
def Worker.uncounted : Worker → Nat
  | .running _ => 1
  | .scanned _ _ => 1
  | _ => 0

/-- Counts a worker whose unit will be found open but is not yet scanned. -/
def Worker.pendingOpen (cfg : ScanConfig) (os : Nat → ProbeAnswers) : Worker → Nat
  | .running t => if (unitResult cfg os t.idx).isOpen = true then 1 else 0
  | _ => 0

/-- The invariant of a scan of `cfg.ports`; `p` is the number of units popped
from the queue so far. -/
structure Inv (cfg : ScanConfig) (os : Nat → ProbeAnswers) (s : PoolState) (p : Nat) :
    Prop where
  total : s.g_totalPorts = cfg.ports.length
  res_len : s.g_results.length = cfg.ports.length
  p_eq : p + s.tasks_.length = s.next
  next_le : s.next ≤ cfg.ports.length
  stop_next : s.stop_ = true → s.next = cfg.ports.length
  tasks_eq : s.tasks_ = (List.range' p s.tasks_.length).map (mkTask cfg)
  workers_ok : ∀ w ∈ s.workers_, Worker.ok cfg os p w
  done : ∀ i < p, (∃ w ∈ s.workers_, Worker.holds i w) ∨
    s.g_results[i]? = some (unitResult cfg os i)
  exited : Worker.exited ∈ s.workers_ → s.stop_ = true ∧ s.tasks_ = []
  scanned : s.g_scanned + ((s.workers_.map Worker.uncounted).sum : Nat) = (p : Int)
  opened : s.g_openCount + ((s.workers_.map (Worker.pendingOpen cfg os)).sum : Nat) =
    (((List.range p).countP (fun i => (unitResult cfg os i).isOpen) : Nat) : Int)

/-- The value `main` stores in `cfg.threads` for the option `-t <arg>`:
`std::min(std::stoi(arg), 500)`. -/
def threadsOption (arg : List Char) : Except StoiError Int :=
  match stoi arg with
  | .ok n => .ok (min n 500)
  | .error e => .error e

/-- A configuration for two ports and two threads. -/
def demoConfig : ScanConfig :=
  { target := "localhost", resolvedIP := "127.0.0.1", ports := [22, 80], threads := 2 }

/-- Answers of the operating system for `demoConfig`: the first port accepts
the connection after 5 ms and sends an SSH greeting, the second one times
out. -/
def demoAnswers (i : Nat) : ProbeAnswers :=
  { socketOk := true, startTime := 0, endTime := 5000000,
    sel := if i = 0 then 1 else 0, inWset := decide (i = 0), soError := 0,
    banner := ⟨true, 0, 5, [83, 83, 72, 13, 10]⟩ }

/-- An interleaving of the main thread and two workers that runs both units
of `demoConfig`; the second unit completes first. -/
def demoSchedule : List Action :=
  [.enqueue, .worker 0, .enqueue, .worker 1, .worker 1, .worker 1, .worker 1, .worker 0,
   .shutdown, .worker 1, .worker 0, .worker 0, .worker 0, .worker 0]

/-- Number of steps a worker has left before it can exit, the exit included,
when it takes no further unit. -/
def Worker.weight : Worker → Nat
  | .waiting => 1
  | .running _ => 4
  | .scanned _ _ => 3
  | .counted _ _ => 2
  | .exited => 0

/-- A bound on the number of actions that can still be taken in `s`: five for
each unit not yet enqueued, four for each queued unit, one for setting
`stop_`, and the steps left to each worker. -/
def remainingSteps (s : PoolState) : Nat :=
  5 * (s.g_totalPorts - s.next).toNat + (if s.stop_ = true then 0 else 1) +
    4 * s.tasks_.length + (s.workers_.map Worker.weight).sum

/-- The answers of the operating system to a `grabBanner` whose connection
succeeds and whose `recv` delivers `bytes` into the zero-initialised `buf` of
512 bytes. -/
def receivedAnswers (bytes : List Nat) : BannerAnswers :=
  { socketOk := true, connectResult := 0, received := bytes.length,
    buf := bytes ++ List.replicate (512 - bytes.length) 0 }

/-- The truncation marker `"..."`. -/
def truncationMarker : List Nat := [46, 46, 46]

/-- The text `s` of the specification's wording: the received bytes in their
order, each CR and LF replaced by one space and every other byte outside
32..126 dropped. -/
def claimedClean (bytes : List Nat) : List Nat :=
  bytes.filterMap (fun b =>
    if b = 13 ∨ b = 10 then some 32
    else if 32 ≤ b ∧ b ≤ 126 then some b
    else none)

/-- A text without its trailing spaces. -/
def dropTrailingSpaces (s : List Nat) : List Nat :=
  (s.reverse.dropWhile (fun c => decide (c = 32))).reverse

/-- The banner of the specification's wording: `t` is `s` without its trailing
spaces; the banner is `t` when it has at most 80 characters, otherwise its
first 80 characters followed by the truncation marker. -/
def claimedBanner (bytes : List Nat) : List Nat :=
  let t := dropTrailingSpaces (claimedClean bytes)
  if t.length ≤ 80 then t else t.take 80 ++ truncationMarker

/-! # Theorems -/

/-! ## The set -/

theorem mem_setInsert (p x : Int) (l : List Int) :
    x ∈ setInsert p l ↔ x = p ∨ x ∈ l := by
  induction l with
  | nil => simp [setInsert]
  | cons q qs ih =>
    unfold setInsert
    split_ifs with h1 h2
    · simp
    · subst h2; simp
    · simp [ih]; tauto

theorem sorted_setInsert (p : Int) (l : List Int) (h : l.Sorted (· < ·)) :
    (setInsert p l).Sorted (· < ·) := by
  induction l with
  | nil => simp [setInsert]
  | cons q qs ih =>
    have hq := List.sorted_cons.mp h
    unfold setInsert
    split_ifs with h1 h2
    · refine List.sorted_cons.mpr ⟨?_, h⟩
      intro y hy
      rcases List.mem_cons.mp hy with rfl | hy
      · exact h1
      · exact lt_trans h1 (hq.1 y hy)
    · exact h
    · refine List.sorted_cons.mpr ⟨?_, ih hq.2⟩
      intro y hy
      rcases (mem_setInsert p y qs).mp hy with rfl | hy
      · omega
      · exact hq.1 y hy

theorem mem_insertLoop (fuel : Nat) (p hi x : Int) (l : List Int) :
    x ∈ insertLoop fuel p hi l ↔ x ∈ l ∨ (p ≤ x ∧ x ≤ hi ∧ x < p + fuel) := by
  induction fuel generalizing p l with
  | zero => simp [insertLoop]; omega
  | succ n ih =>
    unfold insertLoop
    split_ifs with h
    · rw [ih, mem_setInsert]
      push_cast
      constructor
      · rintro ((rfl | hx) | hx)
        · right; omega
        · left; exact hx
        · right; omega
      · rintro (hx | hx)
        · left; right; exact hx
        · by_cases hxp : x = p
          · left; left; exact hxp
          · right; omega
    · constructor
      · intro hx; left; exact hx
      · rintro (hx | hx)
        · exact hx
        · omega

theorem sorted_insertLoop (fuel : Nat) (p hi : Int) (l : List Int)
    (h : l.Sorted (· < ·)) : (insertLoop fuel p hi l).Sorted (· < ·) := by
  induction fuel generalizing p l with
  | zero => simpa [insertLoop] using h
  | succ n ih =>
    unfold insertLoop
    split_ifs with hp
    · exact ih _ _ (sorted_setInsert p l h)
    · exact h

/-- With the fuel `processToken` gives it, the loop inserts exactly the
interval. -/
theorem mem_insertLoop_full (lo hi x : Int) (l : List Int) :
    x ∈ insertLoop (hi + 1 - lo).toNat lo hi l ↔ x ∈ l ∨ (lo ≤ x ∧ x ≤ hi) := by
  rw [mem_insertLoop]
  constructor
  · rintro (hx | hx)
    · left; exact hx
    · right; exact ⟨hx.1, hx.2.1⟩
  · rintro (hx | hx)
    · left; exact hx
    · right; refine ⟨hx.1, hx.2, ?_⟩; omega

theorem mem_intsFromTo (lo hi x : Int) : x ∈ intsFromTo lo hi ↔ lo ≤ x ∧ x ≤ hi := by
  unfold intsFromTo
  rw [List.mem_map]
  constructor
  · rintro ⟨k, hk, rfl⟩
    rw [List.mem_range] at hk
    omega
  · intro hx
    refine ⟨(x - lo).toNat, ?_, ?_⟩
    · rw [List.mem_range]; omega
    · omega

theorem sorted_intsFromTo (lo hi : Int) : (intsFromTo lo hi).Sorted (· < ·) := by
  unfold intsFromTo
  generalize (hi + 1 - lo).toNat = n
  rw [List.Sorted, List.pairwise_map]
  refine List.Pairwise.imp ?_ (List.pairwise_lt_range n)
  intro a b hab
  omega

/-- Two strictly ascending lists with the same elements are equal. -/
theorem eq_of_sorted_of_mem_iff (l₁ l₂ : List Int) (h₁ : l₁.Sorted (· < ·))
    (h₂ : l₂.Sorted (· < ·)) (h : ∀ x, x ∈ l₁ ↔ x ∈ l₂) : l₁ = l₂ :=
  List.eq_of_perm_of_sorted ((List.perm_ext_iff_of_nodup h₁.nodup h₂.nodup).mpr h) h₁ h₂

theorem processToken_eq (token : List Char) (portSet : List Int) :
    processToken token portSet =
      match tokenBounds token with
      | .ok b => .ok (insertLoop (b.2 + 1 - b.1).toNat b.1 b.2 portSet)
      | .error e => .error e := by
  unfold processToken tokenBounds
  simp only []
  cases hf : findChar '-' (trim token) with
  | some dash =>
    simp only []
    cases h1 : stoi ((trim token).take dash) with
    | error e => rfl
    | ok lo =>
      cases h2 : stoi ((trim token).drop (dash + 1)) with
      | error e => rfl
      | ok hi =>
        simp only [bind, Except.bind, pure, Except.pure]
        by_cases hlh : lo > hi
        · simp only [hlh, if_true]
          rw [min_eq_right (le_of_lt hlh), max_eq_left (le_of_lt hlh)]
        · simp only [hlh, if_false]
          rw [min_eq_left (not_lt.mp hlh), max_eq_right (not_lt.mp hlh)]
  | none =>
    simp only []
    cases h1 : stoi (trim token) with
    | error e => rfl
    | ok p =>
      simp only [bind, Except.bind, pure, Except.pure]
      by_cases hp : p ≥ 1 ∧ p ≤ 65535
      · have hp' : 1 ≤ p ∧ p ≤ 65535 := hp
        rw [if_pos hp, if_pos hp']
        have : (p + 1 - p).toNat = 1 := by omega
        simp only [this]
        simp [insertLoop]
      · have hp' : ¬ (1 ≤ p ∧ p ≤ 65535) := hp
        rw [if_neg hp, if_neg hp']
        simp [insertLoop]

theorem isDigit_ne_comma (c : Char) (h : isDigit c = true) : c ≠ ',' := by
  rintro rfl; revert h; decide

theorem isDigit_ne_dash (c : Char) (h : isDigit c = true) : c ≠ '-' := by
  rintro rfl; revert h; decide

theorem isDigit_ne_plus (c : Char) (h : isDigit c = true) : c ≠ '+' := by
  rintro rfl; revert h; decide

theorem isDigit_not_blank (c : Char) (h : isDigit c = true) : isBlank c = false := by
  unfold isBlank
  have h1 : c ≠ ' ' := by rintro rfl; revert h; decide
  have h2 : c ≠ '\t' := by rintro rfl; revert h; decide
  simp [h1, h2]

theorem isDigit_not_space (c : Char) (h : isDigit c = true) : isSpace c = false := by
  unfold isDigit at h
  unfold isSpace
  simp only [Bool.and_eq_true, decide_eq_true_eq] at h
  simp only [Bool.or_eq_false_iff, Bool.and_eq_false_iff, decide_eq_false_iff_not]
  omega

/-- On a non-empty string of digits `stoi` reads the whole string. -/
theorem stoi_digits (ds : List Char) (hne : ds ≠ []) (hd : ∀ c ∈ ds, isDigit c = true) :
    stoi ds = if INT_MAX < (digitsValue 0 ds : Int) then .error .out_of_range
      else .ok (digitsValue 0 ds : Int) := by
  obtain ⟨c, cs, rfl⟩ := List.exists_cons_of_ne_nil hne
  have hc := hd c (List.mem_cons_self _ _)
  have h1 : (c :: cs).dropWhile isSpace = c :: cs := by
    rw [List.dropWhile_cons_of_neg]; simp [isDigit_not_space c hc]
  have h2 : (c :: cs).takeWhile isDigit = c :: cs := by
    rw [List.takeWhile_eq_self_iff]; exact hd
  unfold stoi
  simp only [h1]
  have hm : (match c :: cs with
    | '-' :: r => (true, r)
    | '+' :: r => (false, r)
    | _ => (false, c :: cs)) = (false, c :: cs) := by
    split
    · rename_i heq; exact absurd (List.cons.inj heq).1 (isDigit_ne_dash c hc)
    · rename_i heq; exact absurd (List.cons.inj heq).1 (isDigit_ne_plus c hc)
    · rfl
  rw [hm]
  simp only [h2]
  have hnn : (0 : Int) ≤ (digitsValue 0 (c :: cs) : Int) := Int.natCast_nonneg _
  have : ¬ ((digitsValue 0 (c :: cs) : Int) < INT_MIN) := by
    unfold INT_MIN; omega
  simp [this]

/-- A token that neither starts nor ends with a blank is left alone by the
trim step. -/
theorem trim_eq_self (t : List Char) (hhead : ∀ c ∈ t.head?, isBlank c = false)
    (hlast : ∀ c ∈ t.getLast?, isBlank c = false) : trim t = t := by
  unfold trim
  have h1 : t.dropWhile isBlank = t := by
    cases t with
    | nil => rfl
    | cons c cs =>
      rw [List.dropWhile_cons_of_neg]
      simp [hhead c (by simp)]
  rw [h1]
  have h2 : t.reverse.dropWhile isBlank = t.reverse := by
    cases hr : t.reverse with
    | nil => rfl
    | cons c cs =>
      rw [List.dropWhile_cons_of_neg]
      have : t.getLast? = some c := by
        rw [← List.head?_reverse, hr]; rfl
      simp [hlast c (by simp [this])]
  rw [h2, List.reverse_reverse]

theorem findChar_eq_none (c : Char) (t : List Char) (h : c ∉ t) : findChar c t = none := by
  induction t with
  | nil => rfl
  | cons d ds ih =>
    have hd : d ≠ c := fun e => h (by simp [e])
    have hds : c ∉ ds := fun e => h (by simp [e])
    simp [findChar, hd, ih hds]

theorem findChar_append (c : Char) (a b : List Char) (h : c ∉ a) :
    findChar c (a ++ c :: b) = some a.length := by
  induction a with
  | nil => simp [findChar]
  | cons d ds ih =>
    have hd : d ≠ c := fun e => h (by simp [e])
    have hds : c ∉ ds := fun e => h (by simp [e])
    simp [findChar, hd, ih hds]

theorem getlineTokensAux_append (cur t rest : List Char) (h : ',' ∉ t) :
    getlineTokensAux cur (t ++ rest) = getlineTokensAux (t.reverse ++ cur) rest := by
  induction t generalizing cur with
  | nil => rfl
  | cons d ds ih =>
    have hd : d ≠ ',' := fun e => h (by simp [e])
    have hds : ',' ∉ ds := fun e => h (by simp [e])
    have e : getlineTokensAux cur (d :: ds ++ rest) =
        getlineTokensAux (d :: cur) (ds ++ rest) := by
      rw [List.cons_append, getlineTokensAux, if_neg hd]
    rw [e, ih _ hds]
    simp

/-- A non-empty string without a comma is read as one token. -/
theorem getlineTokens_single (t : List Char) (hne : t ≠ []) (h : ',' ∉ t) :
    getlineTokens t = [t] := by
  unfold getlineTokens
  have := getlineTokensAux_append [] t [] h
  rw [List.append_nil] at this
  rw [this]
  simp [getlineTokensAux, hne]

/-- A comma-free token in front of a comma is read whole. -/
theorem getlineTokens_cons (t rest : List Char) (h : ',' ∉ t) :
    getlineTokens (t ++ ',' :: rest) = t :: getlineTokens rest := by
  unfold getlineTokens
  rw [getlineTokensAux_append [] t _ h]
  simp [getlineTokensAux]

/-- The token list unrolls along the successive `getline` calls. -/
theorem getlineTokensAux_getline (cur s : List Char) :
    getlineTokensAux cur s =
      match getline ',' s with
      | none => if cur = [] then [] else [cur.reverse]
      | some (t, r) => (cur.reverse ++ t) :: getlineTokens r := by
  induction s generalizing cur with
  | nil => rfl
  | cons c cs ih =>
    by_cases hc : c = ','
    · simp [getlineTokensAux, getline, extractUntil, hc, getlineTokens]
    · simp only [getlineTokensAux, if_neg hc, getline, extractUntil]
      rw [ih]
      cases cs with
      | nil => simp [getline, getlineTokens, getlineTokensAux, extractUntil]
      | cons d ds => simp [getline]

theorem getlineTokens_getline (s : List Char) :
    getlineTokens s =
      match getline ',' s with
      | none => []
      | some (t, r) => t :: getlineTokens r := by
  have := getlineTokensAux_getline [] s
  simpa [getlineTokens] using this

theorem tokenBounds_range (t : List Char) (b : Int × Int) (h : tokenBounds t = .ok b) :
    1 ≤ b.1 ∧ b.2 ≤ 65535 := by
  unfold tokenBounds at h
  simp only [] at h
  split at h
  · split at h
    · cases h
    · split at h
      · cases h
      · cases h
        exact ⟨le_max_left _ _, min_le_left _ _⟩
  · split at h
    · cases h
    · split at h
      · rename_i hp; cases h; exact hp
      · cases h; decide

/-- What the loop over the tokens computes from `portSet`: ascending order is
kept and exactly the intervals of the tokens are added. -/
theorem parseLoop_spec (toks : List (List Char)) (s s' : List Int)
    (h : parseLoop toks s = .ok s') :
    (s.Sorted (· < ·) → s'.Sorted (· < ·)) ∧
    (∀ t ∈ toks, ∃ b, tokenBounds t = .ok b) ∧
    (∀ x, x ∈ s' ↔ x ∈ s ∨ ∃ t ∈ toks, ∃ b, tokenBounds t = .ok b ∧ b.1 ≤ x ∧ x ≤ b.2) := by
  induction toks generalizing s with
  | nil =>
    simp only [parseLoop] at h
    cases h
    simp
  | cons t rest ih =>
    simp only [parseLoop, processToken_eq] at h
    cases hb : tokenBounds t with
    | error e => simp [hb] at h
    | ok b =>
      simp only [hb] at h
      obtain ⟨ih1, ih2, ih3⟩ := ih _ h
      refine ⟨fun hs => ih1 (sorted_insertLoop _ _ _ _ hs), ?_, ?_⟩
      · intro t' ht'
        rcases List.mem_cons.mp ht' with rfl | ht'
        · exact ⟨b, hb⟩
        · exact ih2 t' ht'
      · intro x
        rw [ih3, mem_insertLoop_full]
        constructor
        · rintro ((hx | hx) | ⟨t', ht', b', hb', hx⟩)
          · left; exact hx
          · right; exact ⟨t, List.mem_cons_self _ _, b, hb, hx⟩
          · right; exact ⟨t', List.mem_cons_of_mem _ ht', b', hb', hx⟩
        · rintro (hx | ⟨t', ht', b', hb', hx⟩)
          · left; left; exact hx
          · rcases List.mem_cons.mp ht' with rfl | ht'
            · rw [hb] at hb'; cases hb'
              left; right; exact hx
            · right; exact ⟨t', ht', b', hb', hx⟩

/-- The loop runs to its end when every token resolves. -/
theorem parseLoop_ok (toks : List (List Char)) (s : List Int)
    (h : ∀ t ∈ toks, ∃ b, tokenBounds t = .ok b) : ∃ s', parseLoop toks s = .ok s' := by
  induction toks generalizing s with
  | nil => exact ⟨s, rfl⟩
  | cons t rest ih =>
    obtain ⟨b, hb⟩ := h t (List.mem_cons_self _ _)
    simp only [parseLoop, processToken_eq, hb]
    exact ih _ (fun t' ht' => h t' (List.mem_cons_of_mem _ ht'))

/-- The loop stops with an exception when some token does not resolve. -/
theorem parseLoop_error (toks : List (List Char)) (s : List Int) (t : List Char)
    (ht : t ∈ toks) (e : StoiError) (he : tokenBounds t = .error e) :
    ∃ e', parseLoop toks s = .error e' := by
  induction toks generalizing s with
  | nil => cases ht
  | cons t' rest ih =>
    simp only [parseLoop, processToken_eq]
    cases hb : tokenBounds t' with
    | error e' => exact ⟨e', rfl⟩
    | ok b =>
      simp only []
      rcases List.mem_cons.mp ht with rfl | ht
      · rw [hb] at he; cases he
      · exact ih _ ht

/-- The specification made of one comma-free token. -/
theorem parsePorts_single (t : List Char) (hne : t ≠ []) (h : ',' ∉ t) :
    parsePorts t =
      match tokenBounds t with
      | .ok b => .ok (intsFromTo b.1 b.2)
      | .error e => .error e := by
  unfold parsePorts
  rw [getlineTokens_single t hne h]
  simp only [parseLoop, processToken_eq]
  cases hb : tokenBounds t with
  | error e => rfl
  | ok b =>
    simp only []
    congr 1
    apply eq_of_sorted_of_mem_iff
    · exact sorted_insertLoop _ _ _ _ List.sorted_nil
    · exact sorted_intsFromTo _ _
    · intro x
      rw [mem_insertLoop_full, mem_intsFromTo]
      simp

theorem getlineTokens_joinTokens (toks : List (List Char)) (hne : toks ≠ [])
    (h : ∀ t ∈ toks, t ≠ [] ∧ ',' ∉ t) : getlineTokens (joinTokens toks) = toks := by
  induction toks with
  | nil => exact absurd rfl hne
  | cons t rest ih =>
    cases rest with
    | nil =>
      obtain ⟨h1, h2⟩ := h t (List.mem_cons_self _ _)
      simpa [joinTokens] using getlineTokens_single t h1 h2
    | cons t' rest' =>
      obtain ⟨_, h2⟩ := h t (List.mem_cons_self _ _)
      simp only [joinTokens]
      rw [getlineTokens_cons _ _ h2, ih (by simp) (fun u hu => h u (List.mem_cons_of_mem _ hu))]

theorem stoi_of_not_startsWithNumber (s : List Char) (h : startsWithNumber s = false) :
    stoi s = .error .invalid_argument := by
  unfold startsWithNumber at h
  unfold stoi
  cases hd : s.dropWhile isSpace with
  | nil => simp
  | cons c rest =>
    rw [hd] at h
    simp only [] at h
    by_cases hm : c = '-'
    · subst hm
      simp only [true_or, if_true] at h
      cases rest with
      | nil => simp
      | cons d r =>
        simp only [] at h
        simp [List.takeWhile, h]
    · by_cases hp : c = '+'
      · subst hp
        simp only [or_true, if_true] at h
        cases rest with
        | nil => simp
        | cons d r =>
          simp only [] at h
          simp [List.takeWhile, h]
      · simp only [hm, hp, or_self, if_false] at h
        have hmatch : (match c :: rest with
          | '-' :: r => (true, r)
          | '+' :: r => (false, r)
          | _ => (false, c :: rest)) = (false, c :: rest) := by
          split
          · rename_i heq; exact absurd (List.cons.inj heq).1 hm
          · rename_i heq; exact absurd (List.cons.inj heq).1 hp
          · rfl
        simp only [hmatch]
        simp [List.takeWhile, h]

theorem tokenBounds_of_lacksNumber (t : List Char) (h : lacksNumber t = true) :
    ∃ e, tokenBounds t = .error e := by
  unfold lacksNumber at h
  unfold tokenBounds
  simp only [] at h ⊢
  cases hf : findChar '-' (trim t) with
  | some dash =>
    rw [hf] at h
    simp only [Bool.or_eq_true, Bool.not_eq_true'] at h
    simp only []
    cases h1 : stoi ((trim t).take dash) with
    | error e => exact ⟨e, rfl⟩
    | ok lo =>
      rcases h with h | h
      · rw [stoi_of_not_startsWithNumber _ h] at h1; cases h1
      · simp only [stoi_of_not_startsWithNumber _ h]
        exact ⟨_, rfl⟩
  | none =>
    rw [hf] at h
    simp only [Bool.not_eq_true'] at h
    simp only [stoi_of_not_startsWithNumber _ h]
    exact ⟨_, rfl⟩

theorem trim_digits (ds : List Char) (hd : ∀ c ∈ ds, isDigit c = true) : trim ds = ds := by
  apply trim_eq_self
  · intro c hc
    exact isDigit_not_blank _ (hd c (List.mem_of_mem_head? hc))
  · intro c hc
    exact isDigit_not_blank _ (hd c (List.mem_of_getLast?_eq_some hc))

theorem trim_range_token (a b : List Char) (ha : a ≠ []) (hb : b ≠ [])
    (hda : ∀ c ∈ a, isDigit c = true) (hdb : ∀ c ∈ b, isDigit c = true) :
    trim (a ++ '-' :: b) = a ++ '-' :: b := by
  apply trim_eq_self
  · intro c hc
    obtain ⟨x, xs, rfl⟩ := List.exists_cons_of_ne_nil ha
    simp at hc
    subst hc
    exact isDigit_not_blank _ (hda _ (List.mem_cons_self _ _))
  · intro c hc
    have hl : (a ++ '-' :: b).getLast? = b.getLast? := by
      have e : a ++ '-' :: b = (a ++ ['-']) ++ b := by simp
      rw [e, List.getLast?_append_of_ne_nil _ hb]
    rw [hl] at hc
    exact isDigit_not_blank _ (hdb c (List.mem_of_getLast?_eq_some hc))

/-- The bounds of a range token made of two digit strings. -/
theorem tokenBounds_range_token (a b : List Char) (ha : a ≠ []) (hb : b ≠ [])
    (hda : ∀ c ∈ a, isDigit c = true) (hdb : ∀ c ∈ b, isDigit c = true)
    (hla : (digitsValue 0 a : Int) ≤ INT_MAX) (hlb : (digitsValue 0 b : Int) ≤ INT_MAX) :
    tokenBounds (a ++ '-' :: b) =
      .ok (max 1 (min (digitsValue 0 a : Int) (digitsValue 0 b)),
           min 65535 (max (digitsValue 0 a : Int) (digitsValue 0 b))) := by
  have hdash : '-' ∉ a := fun hm => isDigit_ne_dash _ (hda _ hm) rfl
  unfold tokenBounds
  simp only [trim_range_token a b ha hb hda hdb, findChar_append '-' a b hdash]
  have e1 : (a ++ '-' :: b).take a.length = a := by simp
  have e2 : (a ++ '-' :: b).drop (a.length + 1) = b := by
    have : a ++ '-' :: b = (a ++ ['-']) ++ b := by simp
    rw [this]
    exact List.drop_left' (by simp)
  rw [e1, e2, stoi_digits a ha hda, stoi_digits b hb hdb, if_neg (not_lt.mpr hla),
    if_neg (not_lt.mpr hlb)]

/-- The bounds of a token made of one digit string. -/
theorem tokenBounds_digits (ds : List Char) (hne : ds ≠ [])
    (hd : ∀ c ∈ ds, isDigit c = true) (hl : (digitsValue 0 ds : Int) ≤ INT_MAX) :
    tokenBounds ds =
      if 1 ≤ (digitsValue 0 ds : Int) ∧ (digitsValue 0 ds : Int) ≤ 65535 then
        .ok ((digitsValue 0 ds : Int), (digitsValue 0 ds : Int))
      else .ok (1, 0) := by
  have hdash : '-' ∉ ds := fun hm => isDigit_ne_dash _ (hd _ hm) rfl
  unfold tokenBounds
  simp only [trim_digits ds hd, findChar_eq_none '-' ds hdash]
  rw [stoi_digits ds hne hd, if_neg (not_lt.mpr hl)]

/-- A comma-free token with bounds resolves alone. -/
theorem parsePorts_single_ok (t : List Char) (b : Int × Int) (hne : t ≠ []) (h : ',' ∉ t)
    (hb : tokenBounds t = .ok b) : ∃ r, parsePorts t = .ok r :=
  ⟨intsFromTo b.1 b.2, by rw [parsePorts_single t hne h, hb]⟩

/-! ## The port set resolver: the claims -/

/-- C1: whenever `parsePorts` returns, the returned vector is strictly
ascending, hence free of duplicates, and each of its elements lies in
`[1, 65535]`; and `parsePorts("80,22,80,1-3")` is `[1,2,3,22,80]`. -/
theorem parsePorts_ascending_in_range :
    (∀ (spec : List Char) (ports : List Int), parsePorts spec = .ok ports →
      ports.Sorted (· < ·) ∧ ports.Nodup ∧ ∀ p ∈ ports, 1 ≤ p ∧ p ≤ 65535) ∧
    parsePorts "80,22,80,1-3".toList = .ok [1, 2, 3, 22, 80] := by
  refine ⟨?_, by decide⟩
  intro spec ports h
  obtain ⟨h1, _, h3⟩ := parseLoop_spec _ _ _ h
  have hs := h1 List.sorted_nil
  refine ⟨hs, hs.nodup, ?_⟩
  intro p hp
  rcases (h3 p).mp hp with hp | ⟨t, _, b, hb, hx⟩
  · cases hp
  · have := tokenBounds_range t b hb
    omega

/-- The general part of C1 at the specification `"443, 8080,1-5,3"`. -/
theorem parsePorts_ascending_in_range_witness :
    parsePorts "443, 8080,1-5,3".toList = .ok [1, 2, 3, 4, 5, 443, 8080] ∧
    ([1, 2, 3, 4, 5, 443, 8080] : List Int).Sorted (· < ·) ∧
    ([1, 2, 3, 4, 5, 443, 8080] : List Int).Nodup ∧
    ∀ p ∈ ([1, 2, 3, 4, 5, 443, 8080] : List Int), 1 ≤ p ∧ p ≤ 65535 :=
  ⟨by decide,
   parsePorts_ascending_in_range.1 "443, 8080,1-5,3".toList [1, 2, 3, 4, 5, 443, 8080]
    (by decide)⟩

/-- C2: for a non-empty list of non-empty, comma-free tokens, each of which
`parsePorts` resolves alone, `parsePorts` of the tokens joined by `,` is the
ascending union of the results of the tokens; any other non-empty list with
the same tokens, in whatever order and however often repeated, gives the same
vector. -/
theorem parsePorts_joinTokens (toks : List (List Char)) (hne : toks ≠ [])
    (htok : ∀ t ∈ toks, t ≠ [] ∧ ',' ∉ t)
    (hres : ∀ t ∈ toks, ∃ r, parsePorts t = .ok r) :
    ∃ ports, parsePorts (joinTokens toks) = .ok ports ∧
      ports.Sorted (· < ·) ∧
      (∀ x, x ∈ ports ↔ ∃ t ∈ toks, ∃ r, parsePorts t = .ok r ∧ x ∈ r) ∧
      (∀ toks' : List (List Char), toks' ≠ [] → (∀ t, t ∈ toks' ↔ t ∈ toks) →
        parsePorts (joinTokens toks') = .ok ports) := by
  have hb : ∀ t ∈ toks, ∃ b, tokenBounds t = .ok b := by
    intro t ht
    obtain ⟨r, hr⟩ := hres t ht
    rw [parsePorts_single t (htok t ht).1 (htok t ht).2] at hr
    cases hb : tokenBounds t with
    | error e => rw [hb] at hr; cases hr
    | ok b => exact ⟨b, rfl⟩
  have key : ∀ toks' : List (List Char), toks' ≠ [] → (∀ t, t ∈ toks' ↔ t ∈ toks) →
      ∃ ports, parsePorts (joinTokens toks') = .ok ports ∧ ports.Sorted (· < ·) ∧
        (∀ x, x ∈ ports ↔ ∃ t ∈ toks, ∃ r, parsePorts t = .ok r ∧ x ∈ r) := by
    intro toks' hne' hmem
    have htok' : ∀ t ∈ toks', t ≠ [] ∧ ',' ∉ t := fun t ht => htok t ((hmem t).mp ht)
    obtain ⟨ports, hp⟩ := parseLoop_ok toks' [] (fun t ht => hb t ((hmem t).mp ht))
    obtain ⟨h1, _, h3⟩ := parseLoop_spec _ _ _ hp
    refine ⟨ports, ?_, h1 List.sorted_nil, ?_⟩
    · unfold parsePorts
      rw [getlineTokens_joinTokens toks' hne' htok']
      exact hp
    · intro x
      rw [h3]
      constructor
      · rintro (hx | ⟨t, ht, b, hbt, hx⟩)
        · cases hx
        · have ht' := (hmem t).mp ht
          refine ⟨t, ht', intsFromTo b.1 b.2, ?_, (mem_intsFromTo _ _ _).mpr hx⟩
          rw [parsePorts_single t (htok t ht').1 (htok t ht').2, hbt]
      · rintro ⟨t, ht, r, hr, hx⟩
        right
        rw [parsePorts_single t (htok t ht).1 (htok t ht).2] at hr
        cases hbt : tokenBounds t with
        | error e => rw [hbt] at hr; cases hr
        | ok b =>
          rw [hbt] at hr
          cases hr
          exact ⟨t, (hmem t).mpr ht, b, hbt, (mem_intsFromTo _ _ _).mp hx⟩
  obtain ⟨ports, hp, hs, hm⟩ := key toks hne (fun _ => Iff.rfl)
  refine ⟨ports, hp, hs, hm, ?_⟩
  intro toks' hne' hmem
  obtain ⟨ports', hp', hs', hm'⟩ := key toks' hne' hmem
  rw [hp']
  congr 1
  exact eq_of_sorted_of_mem_iff _ _ hs' hs (fun x => (hm' x).trans (hm x).symm)

/-- C2 at the tokens of `"1-100,443,8000-9000"`. -/
theorem parsePorts_joinTokens_witness :
    joinTokens ["1-100".toList, "443".toList, "8000-9000".toList] =
      "1-100,443,8000-9000".toList ∧
    ∃ ports, parsePorts (joinTokens ["1-100".toList, "443".toList, "8000-9000".toList]) =
        .ok ports ∧
      ports.Sorted (· < ·) ∧
      (∀ x, x ∈ ports ↔ ∃ t ∈ ["1-100".toList, "443".toList, "8000-9000".toList],
        ∃ r, parsePorts t = .ok r ∧ x ∈ r) ∧
      (∀ toks' : List (List Char), toks' ≠ [] →
        (∀ t, t ∈ toks' ↔ t ∈ ["1-100".toList, "443".toList, "8000-9000".toList]) →
        parsePorts (joinTokens toks') = .ok ports) :=
  ⟨by decide,
   parsePorts_joinTokens ["1-100".toList, "443".toList, "8000-9000".toList] (by decide)
    (by decide)
    (by
      intro t ht
      simp only [List.mem_cons, List.mem_singleton, List.not_mem_nil, or_false] at ht
      rcases ht with rfl | rfl | rfl
      · exact parsePorts_single_ok _ (1, 100) (by decide) (by decide) (by decide)
      · exact parsePorts_single_ok _ (443, 443) (by decide) (by decide) (by decide)
      · exact parsePorts_single_ok _ (8000, 9000) (by decide) (by decide) (by decide))⟩

/-- C3 as stated fails: on `"70000-80000"` the code returns no port, while
clamping both bounds to `[1, 65535]` would give `[65535]`. -/
theorem parsePorts_range_clamp_counterexample :
    parsePorts "70000-80000".toList = .ok [] ∧
    claimedRange 70000 80000 = [65535] ∧
    parsePorts "70000-80000".toList ≠ .ok (claimedRange 70000 80000) := by
  decide

/-- C3, amended: for a range token `lo-hi` whose bounds are non-empty digit
strings that fit in an `int`, `parsePorts` returns exactly the ascending
integers from `max(1, min(lo, hi))` to `min(65535, max(lo, hi))`: the bounds
are swapped when `lo > hi`, the lower one is raised to 1 and the upper one
lowered to 65535 (nothing is returned when the range misses `[1, 65535]`). -/
theorem parsePorts_range_token (a b : List Char) (ha : a ≠ []) (hb : b ≠ [])
    (hda : ∀ c ∈ a, isDigit c = true) (hdb : ∀ c ∈ b, isDigit c = true)
    (hla : (digitsValue 0 a : Int) ≤ INT_MAX) (hlb : (digitsValue 0 b : Int) ≤ INT_MAX) :
    parsePorts (a ++ '-' :: b) =
      .ok (intsFromTo (max 1 (min (digitsValue 0 a : Int) (digitsValue 0 b)))
        (min 65535 (max (digitsValue 0 a : Int) (digitsValue 0 b)))) := by
  have hcomma : ',' ∉ a ++ '-' :: b := by
    intro hm
    rcases List.mem_append.mp hm with hm | hm
    · exact isDigit_ne_comma _ (hda _ hm) rfl
    · rcases List.mem_cons.mp hm with hm | hm
      · revert hm; decide
      · exact isDigit_ne_comma _ (hdb _ hm) rfl
  rw [parsePorts_single _ (by simp) hcomma, tokenBounds_range_token a b ha hb hda hdb hla hlb]

/-- C3, amended, at `"0-70000"` (all of 1..65535) and at the reversed
`"500-10"` (10..500). -/
theorem parsePorts_range_token_witness :
    parsePorts "0-70000".toList = .ok (intsFromTo 1 65535) ∧
    parsePorts "500-10".toList = .ok (intsFromTo 10 500) :=
  ⟨parsePorts_range_token "0".toList "70000".toList (by decide) (by decide) (by decide)
      (by decide) (by decide) (by decide),
   parsePorts_range_token "500".toList "10".toList (by decide) (by decide) (by decide)
      (by decide) (by decide) (by decide)⟩

/-- C4 as stated fails: the digit string `2147483648` does not fit in an `int`
and `std::stoi` throws `out_of_range` instead of the port being dropped. -/
theorem parsePorts_single_port_counterexample :
    (∀ c ∈ "2147483648".toList, isDigit c = true) ∧
    digitsValue 0 "2147483648".toList = 2147483648 ∧
    parsePorts "2147483648".toList = .error .out_of_range := by
  decide

/-- C4, amended: for a token that is a non-empty string of decimal digits
whose number `n` fits in an `int`, `parsePorts` returns `[n]` when
`1 <= n <= 65535` and the empty vector otherwise, without failing. -/
theorem parsePorts_single_port (ds : List Char) (hne : ds ≠ [])
    (hd : ∀ c ∈ ds, isDigit c = true) (hl : (digitsValue 0 ds : Int) ≤ INT_MAX) :
    parsePorts ds =
      .ok (if 1 ≤ (digitsValue 0 ds : Int) ∧ (digitsValue 0 ds : Int) ≤ 65535
        then [(digitsValue 0 ds : Int)] else []) := by
  have hcomma : ',' ∉ ds := fun hm => isDigit_ne_comma _ (hd _ hm) rfl
  rw [parsePorts_single _ hne hcomma, tokenBounds_digits ds hne hd hl]
  split_ifs with h
  · have : ((digitsValue 0 ds : Int) + 1 - (digitsValue 0 ds : Int)).toNat = 1 := by omega
    simp [intsFromTo, this, List.range_succ]
  · rfl

/-- C4, amended, at the accepted port `"443"` and the dropped ports `"70000"`
and `"0"`. -/
theorem parsePorts_single_port_witness :
    parsePorts "443".toList = .ok [443] ∧
    parsePorts "70000".toList = .ok [] ∧
    parsePorts "0".toList = .ok [] :=
  ⟨parsePorts_single_port "443".toList (by decide) (by decide) (by decide),
   parsePorts_single_port "70000".toList (by decide) (by decide) (by decide),
   parsePorts_single_port "0".toList (by decide) (by decide) (by decide)⟩

/-- C5 as stated fails: `"80abc"` is one token, it is not numeric, and
`parsePorts` returns port 80 for it; the same holds after a valid token. -/
theorem parsePorts_non_numeric_counterexample :
    getlineTokens "80abc".toList = ["80abc".toList] ∧
    isNumericToken "80abc".toList = false ∧
    parsePorts "80abc".toList = .ok [80] ∧
    parsePorts "22,80abc".toList = .ok [22, 80] := by
  decide

/-- C5, amended: when a token read from the specification lacks a number
where `parsePorts` reads one (after trimming: the token without `-`, or the
part before the first `-`, or the part after it, does not start, after white
space and an optional sign, with a digit), `parsePorts` throws and yields no
ports, wherever that token stands. -/
theorem parsePorts_throws_of_lacksNumber (spec t : List Char)
    (ht : t ∈ getlineTokens spec) (hl : lacksNumber t = true) :
    ∃ e, parsePorts spec = .error e := by
  obtain ⟨e, he⟩ := tokenBounds_of_lacksNumber t hl
  exact parseLoop_error _ _ t ht e he

/-- C5, amended, at `"22,80,http"`: the failing token stands after two valid
ones. -/
theorem parsePorts_throws_of_lacksNumber_witness :
    "http".toList ∈ getlineTokens "22,80,http".toList ∧
    lacksNumber "http".toList = true ∧
    ∃ e, parsePorts "22,80,http".toList = .error e :=
  ⟨by decide, by decide,
   parsePorts_throws_of_lacksNumber "22,80,http".toList "http".toList (by decide) (by decide)⟩

/-! ## The probe -/

/-- The result of `scanPort` does not depend on the counter passed in. -/
theorem scanPort_fst (os : ProbeAnswers) (ip : String) (port : Int) (cfg : ScanConfig)
    (c c' : Int) : (scanPort os ip port cfg c).1 = (scanPort os ip port cfg c').1 := by
  unfold scanPort
  by_cases h1 : os.socketOk = false
  · simp [h1]
  · by_cases h2 : os.sel > 0 ∧ os.inWset = true <;> by_cases h3 : os.soError = 0 <;>
      simp [h1, h2, h3]

/-- The counter `g_openCount` is incremented exactly when the result is open. -/
theorem scanPort_snd (os : ProbeAnswers) (ip : String) (port : Int) (cfg : ScanConfig)
    (c : Int) :
    (scanPort os ip port cfg c).2 =
      c + if (scanPort os ip port cfg c).1.isOpen = true then 1 else 0 := by
  unfold scanPort
  by_cases h1 : os.socketOk = false
  · simp [h1]
  · by_cases h2 : os.sel > 0 ∧ os.inWset = true <;> by_cases h3 : os.soError = 0 <;>
      simp [h1, h2, h3]

theorem scanPort_port (os : ProbeAnswers) (ip : String) (port : Int) (cfg : ScanConfig)
    (c : Int) : (scanPort os ip port cfg c).1.port = port := by
  unfold scanPort
  by_cases h1 : os.socketOk = false
  · simp [h1]
  · simp [h1]

/-- C9: with the answers of the operating system as inputs, `scanPort` returns
`open = true` exactly when the socket was created, `select` returned a
positive count with the socket in the write set, and the pending error read
through `SO_ERROR` is zero; a failed socket creation, a timeout (`sel = 0`), a
`select` error (`sel < 0`) and a non-zero pending error all give
`open = false`. -/
theorem scanPort_open_iff (os : ProbeAnswers) (ip : String) (port : Int) (cfg : ScanConfig)
    (g_openCount : Int) :
    ((scanPort os ip port cfg g_openCount).1.isOpen = true ↔
      (os.socketOk = true ∧ os.sel > 0 ∧ os.inWset = true ∧ os.soError = 0)) ∧
    (os.socketOk = false → (scanPort os ip port cfg g_openCount).1.isOpen = false) ∧
    (os.sel ≤ 0 → (scanPort os ip port cfg g_openCount).1.isOpen = false) ∧
    (os.inWset = false → (scanPort os ip port cfg g_openCount).1.isOpen = false) ∧
    (os.soError ≠ 0 → (scanPort os ip port cfg g_openCount).1.isOpen = false) := by
  have key : (scanPort os ip port cfg g_openCount).1.isOpen = true ↔
      (os.socketOk = true ∧ os.sel > 0 ∧ os.inWset = true ∧ os.soError = 0) := by
    unfold scanPort
    by_cases h1 : os.socketOk = false
    · simp [h1]
    · by_cases h2 : os.sel > 0 ∧ os.inWset = true <;> by_cases h3 : os.soError = 0 <;>
        simp [h1, h2, h3]
  refine ⟨key, ?_, ?_, ?_, ?_⟩
  · intro h
    cases hb : (scanPort os ip port cfg g_openCount).1.isOpen with
    | false => rfl
    | true => have := key.mp hb; rw [h] at this; exact absurd this.1 (by simp)
  · intro h
    cases hb : (scanPort os ip port cfg g_openCount).1.isOpen with
    | false => rfl
    | true => have := key.mp hb; omega
  · intro h
    cases hb : (scanPort os ip port cfg g_openCount).1.isOpen with
    | false => rfl
    | true => have := key.mp hb; rw [h] at this; exact absurd this.2.2.1 (by simp)
  · intro h
    cases hb : (scanPort os ip port cfg g_openCount).1.isOpen with
    | false => rfl
    | true => exact absurd (key.mp hb).2.2.2 h

/-- C10 as stated fails: on the exit path of a failed socket creation the
stored latency is `-1`, whatever the (monotonic) clock reads. -/
theorem scanPort_latency_counterexample :
    socketFailure.startTime ≤ socketFailure.endTime ∧
    (scanPort socketFailure "127.0.0.1" 80 {} 0).1.responseTimeMs = -1 := by
  decide

/-- C10, amended: on every exit path after the socket was created, the stored
latency is the elapsed time in milliseconds and is `>= 0`, given a monotonic
clock and an elapsed time that fits the 32-bit `long` field; on the exit path
of a failed socket creation the stored value is the marker `-1`. -/
theorem scanPort_latency (os : ProbeAnswers) (ip : String) (port : Int) (cfg : ScanConfig)
    (g_openCount : Int) (hmono : os.startTime ≤ os.endTime)
    (hfit : elapsedMs os.startTime os.endTime < 2 ^ 31) :
    (os.socketOk = true →
      (scanPort os ip port cfg g_openCount).1.responseTimeMs =
          elapsedMs os.startTime os.endTime ∧
        0 ≤ (scanPort os ip port cfg g_openCount).1.responseTimeMs) ∧
    (os.socketOk = false → (scanPort os ip port cfg g_openCount).1.responseTimeMs = -1) := by
  have h0 : 0 ≤ elapsedMs os.startTime os.endTime := by
    unfold elapsedMs
    exact Int.tdiv_nonneg (by omega) (by decide)
  have hl : toLong (elapsedMs os.startTime os.endTime) = elapsedMs os.startTime os.endTime := by
    unfold toLong longBits
    norm_num
    omega
  constructor
  · intro hs
    have : (scanPort os ip port cfg g_openCount).1.responseTimeMs =
        toLong (elapsedMs os.startTime os.endTime) := by
      unfold scanPort
      simp [hs]
    rw [this, hl]
    exact ⟨rfl, h0⟩
  · intro hs
    unfold scanPort
    simp [hs]

/-- C10, amended, at a probe that took 5 ms and at one whose socket could not
be created. -/
theorem scanPort_latency_witness :
    (scanPort ⟨true, 1000000, 6000000, 1, true, 0, ⟨false, 0, 0, []⟩⟩ "127.0.0.1" 80 {}
        0).1.responseTimeMs = 5 ∧
    (scanPort ⟨false, 1000000, 6000000, 1, true, 0, ⟨false, 0, 0, []⟩⟩ "127.0.0.1" 80 {}
        0).1.responseTimeMs = -1 :=
  ⟨((scanPort_latency ⟨true, 1000000, 6000000, 1, true, 0, ⟨false, 0, 0, []⟩⟩ "127.0.0.1" 80
      {} 0 (by decide) (by decide)).1 rfl).1.trans (by decide),
   (scanPort_latency ⟨false, 1000000, 6000000, 1, true, 0, ⟨false, 0, 0, []⟩⟩ "127.0.0.1" 80
      {} 0 (by decide) (by decide)).2 rfl⟩

/-! ## The pool -/

theorem set_split {α : Type} (l : List α) (k : Nat) (w : α) (h : l.get? k = some w) :
    ∃ pre post, l = pre ++ w :: post ∧ ∀ w', l.set k w' = pre ++ w' :: post := by
  induction l generalizing k with
  | nil => simp at h
  | cons a l ih =>
    cases k with
    | zero =>
      simp at h
      subst h
      exact ⟨[], l, rfl, fun _ => rfl⟩
    | succ k =>
      simp at h
      obtain ⟨pre, post, h1, h2⟩ := ih k (by simpa using h)
      exact ⟨a :: pre, post, by simp [h1], fun w' => by simp [h2 w']⟩

theorem Worker.ok_mono (cfg : ScanConfig) (os : Nat → ProbeAnswers) (p q : Nat) (hpq : p ≤ q)
    (w : Worker) (h : Worker.ok cfg os p w) : Worker.ok cfg os q w := by
  cases w with
  | waiting => trivial
  | exited => trivial
  | running t => exact ⟨lt_of_lt_of_le h.1 hpq, h.2⟩
  | scanned t r => exact ⟨lt_of_lt_of_le h.1 hpq, h.2⟩
  | counted t r => exact ⟨lt_of_lt_of_le h.1 hpq, h.2⟩

theorem toInt32_of_lt (n : Nat) (h : n < 2 ^ 31) : toInt32 n = n := by
  unfold toInt32
  norm_num at h ⊢
  omega

theorem toSizeT_of_lt (sizeBits : Nat) (x : Int) (hbits : 32 ≤ sizeBits) (h0 : 0 ≤ x)
    (h : x < 2 ^ 31) : ((toSizeT sizeBits x : Nat) : Int) = x := by
  unfold toSizeT
  have hp : (2 : Int) ^ 31 ≤ 2 ^ sizeBits :=
    pow_le_pow_right₀ (by norm_num) (by omega)
  have hx : x % 2 ^ sizeBits = x := Int.emod_eq_of_lt h0 (lt_of_lt_of_le h hp)
  rw [hx]
  exact Int.toNat_of_nonneg h0

/-- The state `runScan` sets up satisfies the invariant. -/
theorem Inv.init (sizeBits : Nat) (cfg : ScanConfig) (os : Nat → ProbeAnswers)
    (hbits : 32 ≤ sizeBits) (hN : cfg.ports.length < 2 ^ 31) :
    Inv cfg os (runScanInit sizeBits cfg) 0 := by
  have ht : toInt32 cfg.ports.length = cfg.ports.length := toInt32_of_lt _ hN
  have hr : toSizeT sizeBits (cfg.ports.length : Int) = cfg.ports.length := by
    have := toSizeT_of_lt sizeBits (cfg.ports.length : Int) hbits (by omega)
      (by exact_mod_cast hN)
    exact_mod_cast this
  constructor
  · simp [runScanInit, ht]
  · simp [runScanInit, ht, hr]
  · simp [runScanInit]
  · simp [runScanInit]
  · simp [runScanInit]
  · simp [runScanInit]
  · intro w hw
    simp only [runScanInit, ThreadPool] at hw
    rw [List.eq_of_mem_replicate hw]
    trivial
  · intro i hi
    omega
  · intro h
    simp only [runScanInit, ThreadPool] at h
    have := List.eq_of_mem_replicate h
    cases this
  · simp [runScanInit, ThreadPool, Worker.uncounted]
  · simp [runScanInit, ThreadPool, Worker.pendingOpen]

theorem countP_range_succ (f : Nat → Bool) (p : Nat) :
    (List.range (p + 1)).countP f = (List.range p).countP f + if f p = true then 1 else 0 := by
  rw [List.range_succ, List.countP_append]
  by_cases h : f p = true <;> simp [List.countP_cons, h]

/-- A worker that takes the front task keeps the invariant, with one more
unit popped. -/
theorem Inv.pop (cfg : ScanConfig) (os : Nat → ProbeAnswers) (s : PoolState) (p : Nat)
    (hinv : Inv cfg os s p) (pre post : List Worker) (t : Task) (rest : List Task)
    (hw : s.workers_ = pre ++ Worker.waiting :: post) (ht : s.tasks_ = t :: rest) :
    Inv cfg os { s with tasks_ := rest, workers_ := pre ++ Worker.running t :: post }
      (p + 1) := by
  obtain ⟨next, stop, tasks, workers, results, scanned, opened, total⟩ := s
  simp only at hw ht
  subst hw ht
  obtain ⟨h1, h2, h3, h4, h5, h6, h7, h8, h9, h10, h11⟩ := hinv
  simp only [List.length_cons] at h3 h6
  rw [List.range'_succ, List.map_cons, List.cons.injEq] at h6
  obtain ⟨h6a, h6b⟩ := h6
  have hidx : t.idx = p := by rw [h6a]; rfl
  constructor
  · exact h1
  · exact h2
  · simp only; omega
  · exact h4
  · exact h5
  · exact h6b
  · intro w hw
    simp only [List.mem_append, List.mem_cons] at hw
    rcases hw with hw | rfl | hw
    · exact Worker.ok_mono cfg os p _ (by omega) w (h7 w (by simp [hw]))
    · refine ⟨by omega, ?_⟩
      rw [hidx]; exact h6a
    · exact Worker.ok_mono cfg os p _ (by omega) w (h7 w (by simp [hw]))
  · intro i hi
    by_cases hip : i < p
    · rcases h8 i hip with ⟨w, hw, hh⟩ | hr
      · left
        simp only [List.mem_append, List.mem_cons] at hw
        rcases hw with hw | rfl | hw
        · exact ⟨w, by simp [hw], hh⟩
        · exact absurd hh (by simp [Worker.holds])
        · exact ⟨w, by simp [hw], hh⟩
      · right; exact hr
    · left
      exact ⟨Worker.running t, by simp, by simp only [Worker.holds]; omega⟩
  · intro he
    have : Worker.exited ∈ pre ++ Worker.waiting :: post := by
      simp only [List.mem_append, List.mem_cons] at he ⊢
      rcases he with he | he | he
      · exact Or.inl he
      · cases he
      · exact Or.inr (Or.inr he)
    have := (h9 this).2
    simp at this
  · simp only [List.map_append, List.map_cons, List.sum_append, List.sum_cons,
      Worker.uncounted] at h10 ⊢
    push_cast at h10 ⊢
    omega
  · simp only [List.map_append, List.map_cons, List.sum_append, List.sum_cons,
      Worker.pendingOpen] at h11 ⊢
    rw [countP_range_succ, hidx]
    push_cast at h11 ⊢
    omega

/-- An element of a list in which one entry was replaced is the new entry or
an element of the list before the replacement. -/
theorem mem_replace {α : Type} (pre post : List α) (w w' x : α)
    (h : x ∈ pre ++ w' :: post) : x = w' ∨ x ∈ pre ++ w :: post := by
  simp only [List.mem_append, List.mem_cons] at h ⊢
  rcases h with h | h | h
  · exact Or.inr (Or.inl h)
  · exact Or.inl h
  · exact Or.inr (Or.inr (Or.inr h))

/-- A waiting worker that finds the queue empty after `stop_` leaves. -/
theorem Inv.exit (cfg : ScanConfig) (os : Nat → ProbeAnswers) (s : PoolState) (p : Nat)
    (hinv : Inv cfg os s p) (pre post : List Worker)
    (hw : s.workers_ = pre ++ Worker.waiting :: post) (ht : s.tasks_ = [])
    (hstop : s.stop_ = true) :
    Inv cfg os { s with workers_ := pre ++ Worker.exited :: post } p := by
  obtain ⟨next, stop, tasks, workers, results, scanned, opened, total⟩ := s
  simp only at hw ht hstop
  subst hw ht hstop
  obtain ⟨h1, h2, h3, h4, h5, h6, h7, h8, h9, h10, h11⟩ := hinv
  refine ⟨h1, h2, h3, h4, h5, h6, ?_, ?_, ?_, ?_, ?_⟩
  · intro w hw
    rcases mem_replace pre post Worker.waiting _ w hw with rfl | hw
    · trivial
    · exact h7 w hw
  · intro i hi
    rcases h8 i hi with ⟨w, hw, hh⟩ | hr
    · left
      rcases mem_replace pre post Worker.exited _ w hw with rfl | hw
      · exact absurd hh (by simp [Worker.holds])
      · exact ⟨w, hw, hh⟩
    · right; exact hr
  · intro _
    exact ⟨rfl, rfl⟩
  · simpa only [List.map_append, List.map_cons, List.sum_append, List.sum_cons,
      Worker.uncounted] using h10
  · simpa only [List.map_append, List.map_cons, List.sum_append, List.sum_cons,
      Worker.pendingOpen] using h11

/-- A worker runs `scanPort` on the unit it holds. -/
theorem Inv.scan (cfg : ScanConfig) (os : Nat → ProbeAnswers) (s : PoolState) (p : Nat)
    (hinv : Inv cfg os s p) (pre post : List Worker) (t : Task)
    (hw : s.workers_ = pre ++ Worker.running t :: post) :
    Inv cfg os
      { s with
        g_openCount := (scanPort (os t.idx) cfg.resolvedIP t.port cfg s.g_openCount).2
        workers_ := pre ++ Worker.scanned t
          (scanPort (os t.idx) cfg.resolvedIP t.port cfg s.g_openCount).1 :: post } p := by
  obtain ⟨next, stop, tasks, workers, results, scanned, opened, total⟩ := s
  simp only at hw
  subst hw
  obtain ⟨h1, h2, h3, h4, h5, h6, h7, h8, h9, h10, h11⟩ := hinv
  have hok := h7 (Worker.running t) (by simp)
  have hport : t.port = cfg.ports.getD t.idx 0 := by
    have := congrArg Task.port hok.2
    simpa [mkTask] using this
  have hres : (scanPort (os t.idx) cfg.resolvedIP t.port cfg opened).1 =
      unitResult cfg os t.idx := by
    unfold unitResult
    rw [hport]
    exact scanPort_fst _ _ _ _ _ _
  have hcnt := scanPort_snd (os t.idx) cfg.resolvedIP t.port cfg opened
  rw [hres] at hcnt
  simp only [hres]
  refine ⟨h1, h2, h3, h4, h5, h6, ?_, ?_, ?_, ?_, ?_⟩
  · intro w hw
    rcases mem_replace pre post (Worker.running t) _ w hw with rfl | hw
    · exact ⟨hok.1, hok.2, rfl⟩
    · exact h7 w hw
  · intro i hi
    rcases h8 i hi with ⟨w, hw, hh⟩ | hr
    · left
      rcases mem_replace pre post (Worker.scanned t (unitResult cfg os t.idx)) _ w hw with
        rfl | hw
      · exact ⟨Worker.scanned t (unitResult cfg os t.idx), by simp, hh⟩
      · exact ⟨w, hw, hh⟩
    · right; exact hr
  · intro he
    apply h9
    rcases mem_replace pre post (Worker.running t) _ _ he with he | he
    · cases he
    · exact he
  · simpa only [List.map_append, List.map_cons, List.sum_append, List.sum_cons,
      Worker.uncounted] using h10
  · simp only [List.map_append, List.map_cons, List.sum_append, List.sum_cons,
      Worker.pendingOpen] at h11 ⊢
    rw [hcnt]
    push_cast at h11 ⊢
    split_ifs at h11 ⊢ <;> omega

/-- A worker increments `g_scanned`. -/
theorem Inv.count (cfg : ScanConfig) (os : Nat → ProbeAnswers) (s : PoolState) (p : Nat)
    (hinv : Inv cfg os s p) (pre post : List Worker) (t : Task) (r : ScanResult)
    (hw : s.workers_ = pre ++ Worker.scanned t r :: post) :
    Inv cfg os
      { s with g_scanned := s.g_scanned + 1
               workers_ := pre ++ Worker.counted t r :: post } p := by
  obtain ⟨next, stop, tasks, workers, results, scanned, opened, total⟩ := s
  simp only at hw
  subst hw
  obtain ⟨h1, h2, h3, h4, h5, h6, h7, h8, h9, h10, h11⟩ := hinv
  have hok := h7 (Worker.scanned t r) (by simp)
  refine ⟨h1, h2, h3, h4, h5, h6, ?_, ?_, ?_, ?_, ?_⟩
  · intro w hw
    rcases mem_replace pre post (Worker.scanned t r) _ w hw with rfl | hw
    · exact hok
    · exact h7 w hw
  · intro i hi
    rcases h8 i hi with ⟨w, hw, hh⟩ | hr
    · left
      rcases mem_replace pre post (Worker.counted t r) _ w hw with rfl | hw
      · exact ⟨Worker.counted t r, by simp, hh⟩
      · exact ⟨w, hw, hh⟩
    · right; exact hr
  · intro he
    apply h9
    rcases mem_replace pre post (Worker.scanned t r) _ _ he with he | he
    · cases he
    · exact he
  · simp only [List.map_append, List.map_cons, List.sum_append, List.sum_cons,
      Worker.uncounted] at h10 ⊢
    push_cast at h10 ⊢
    omega
  · simpa only [List.map_append, List.map_cons, List.sum_append, List.sum_cons,
      Worker.pendingOpen] using h11

/-- A worker stores the result of its unit in `g_results[idx]`. -/
theorem Inv.store (cfg : ScanConfig) (os : Nat → ProbeAnswers) (s : PoolState) (p : Nat)
    (hinv : Inv cfg os s p) (pre post : List Worker) (t : Task) (r : ScanResult)
    (hw : s.workers_ = pre ++ Worker.counted t r :: post) :
    Inv cfg os
      { s with g_results := s.g_results.set t.idx r
               workers_ := pre ++ Worker.waiting :: post } p := by
  obtain ⟨next, stop, tasks, workers, results, scanned, opened, total⟩ := s
  simp only at hw
  subst hw
  obtain ⟨h1, h2, h3, h4, h5, h6, h7, h8, h9, h10, h11⟩ := hinv
  simp only at h1 h2 h3 h4
  have hok := h7 (Worker.counted t r) (by simp)
  have hlt : t.idx < results.length := by
    have := hok.1
    omega
  have hself : (results.set t.idx r)[t.idx]? = some (unitResult cfg os t.idx) := by
    rw [List.getElem?_set_self hlt, hok.2.2]
  refine ⟨h1, by simpa using h2, h3, h4, h5, h6, ?_, ?_, ?_, ?_, ?_⟩
  · intro w hw
    rcases mem_replace pre post (Worker.counted t r) _ w hw with rfl | hw
    · trivial
    · exact h7 w hw
  · intro i hi
    by_cases hit : t.idx = i
    · right; rw [← hit]; exact hself
    · rcases h8 i hi with ⟨w, hw, hh⟩ | hr
      · left
        rcases mem_replace pre post Worker.waiting _ w hw with rfl | hw
        · exact absurd hh hit
        · exact ⟨w, hw, hh⟩
      · right
        simp only
        rw [List.getElem?_set_ne hit]
        exact hr
  · intro he
    apply h9
    rcases mem_replace pre post (Worker.counted t r) _ _ he with he | he
    · cases he
    · exact he
  · simpa only [List.map_append, List.map_cons, List.sum_append, List.sum_cons,
      Worker.uncounted] using h10
  · simpa only [List.map_append, List.map_cons, List.sum_append, List.sum_cons,
      Worker.pendingOpen] using h11

/-- Every step of a worker keeps the invariant. -/
theorem Inv.workerStep (cfg : ScanConfig) (os : Nat → ProbeAnswers) (s s' : PoolState)
    (p k : Nat) (w : Worker) (hinv : Inv cfg os s p) (hk : s.workers_.get? k = some w)
    (hs : workerStep cfg os s k w = some s') : ∃ p', Inv cfg os s' p' := by
  obtain ⟨pre, post, hw, hset⟩ := set_split s.workers_ k w hk
  obtain ⟨next, stop, tasks, workers, results, scanned, opened, total⟩ := s
  simp only at hw hset
  cases w with
  | waiting =>
    cases tasks with
    | nil =>
      simp only [PortScanner.workerStep] at hs
      by_cases hstop : stop = true
      · rw [if_pos hstop, hset] at hs
        cases hs
        exact ⟨p, Inv.exit cfg os _ p hinv pre post hw rfl hstop⟩
      · rw [if_neg hstop] at hs
        cases hs
    | cons t rest =>
      simp only [PortScanner.workerStep, hset] at hs
      cases hs
      exact ⟨p + 1, Inv.pop cfg os _ p hinv pre post t rest hw rfl⟩
  | running t =>
    simp only [PortScanner.workerStep, hset] at hs
    cases hs
    exact ⟨p, Inv.scan cfg os _ p hinv pre post t hw⟩
  | scanned t r =>
    simp only [PortScanner.workerStep, hset] at hs
    cases hs
    exact ⟨p, Inv.count cfg os _ p hinv pre post t r hw⟩
  | counted t r =>
    simp only [PortScanner.workerStep, hset] at hs
    cases hs
    exact ⟨p, Inv.store cfg os _ p hinv pre post t r hw⟩
  | exited =>
    simp only [PortScanner.workerStep] at hs
    cases hs

/-- Every action keeps the invariant. -/
theorem Inv.step (cfg : ScanConfig) (os : Nat → ProbeAnswers) (s s' : PoolState)
    (p : Nat) (a : Action) (hinv : Inv cfg os s p) (hs : step cfg os s a = some s') :
    ∃ p', Inv cfg os s' p' := by
  cases a with
  | enqueue =>
    simp only [PortScanner.step] at hs
    split_ifs at hs with hlt
    cases hs
    obtain ⟨h1, h2, h3, h4, h5, h6, h7, h8, h9, h10, h11⟩ := hinv
    rw [h1] at hlt
    have hlt' : s.next < cfg.ports.length := by exact_mod_cast hlt
    refine ⟨p, ⟨h1, h2, ?_, ?_, ?_, ?_, h7, h8, ?_, h10, h11⟩⟩
    · simp only [List.length_append, List.length_singleton]; omega
    · simp only; omega
    · intro hstop
      have := h5 hstop
      omega
    · simp only [List.length_append, List.length_singleton]
      rw [List.range'_concat, List.map_append, ← h6]
      simp only [List.map_cons, List.map_nil, mkTask, one_mul]
      rw [h3]
    · intro he
      have := h5 (h9 he).1
      omega
  | shutdown =>
    simp only [PortScanner.step] at hs
    split_ifs at hs with hg
    cases hs
    obtain ⟨h1, h2, h3, h4, h5, h6, h7, h8, h9, h10, h11⟩ := hinv
    rw [h1] at hg
    have hge : ¬ s.next < cfg.ports.length := fun h => hg.1 (by exact_mod_cast h)
    refine ⟨p, ⟨h1, h2, h3, h4, ?_, h6, h7, h8, ?_, h10, h11⟩⟩
    · intro _
      simp only
      omega
    · intro he
      have := (h9 he).1
      rw [hg.2] at this
      cases this
  | worker k =>
    simp only [PortScanner.step] at hs
    cases hk : s.workers_.get? k with
    | none => rw [hk] at hs; cases hs
    | some w =>
      rw [hk] at hs
      exact Inv.workerStep cfg os s s' p k w hinv hk hs

/-- The invariant holds along every schedule. -/
theorem Inv.runSchedule (cfg : ScanConfig) (os : Nat → ProbeAnswers) (sched : List Action)
    (s : PoolState) (p : Nat) (hinv : Inv cfg os s p) :
    ∃ p', Inv cfg os (runSchedule cfg os s sched) p' := by
  induction sched generalizing s p with
  | nil => exact ⟨p, hinv⟩
  | cons a rest ih =>
    unfold PortScanner.runSchedule
    cases hs : PortScanner.step cfg os s a with
    | none => exact ih s p hinv
    | some s' =>
      obtain ⟨p', hinv'⟩ := Inv.step cfg os s s' p a hinv hs
      exact ih s' p' hinv'

theorem workerStep_length (cfg : ScanConfig) (os : Nat → ProbeAnswers) (s s' : PoolState)
    (k : Nat) (w : Worker) (hs : workerStep cfg os s k w = some s') :
    s'.workers_.length = s.workers_.length := by
  cases w with
  | waiting =>
    unfold workerStep at hs
    cases ht : s.tasks_ with
    | nil =>
      rw [ht] at hs
      simp only at hs
      split_ifs at hs
      cases hs
      simp
    | cons t rest =>
      rw [ht] at hs
      simp only at hs
      cases hs
      simp
  | running t => simp only [workerStep] at hs; cases hs; simp
  | scanned t r => simp only [workerStep] at hs; cases hs; simp
  | counted t r => simp only [workerStep] at hs; cases hs; simp
  | exited => simp only [workerStep] at hs; cases hs

/-- No action changes the number of workers. -/
theorem runSchedule_length (cfg : ScanConfig) (os : Nat → ProbeAnswers) (sched : List Action)
    (s : PoolState) : (runSchedule cfg os s sched).workers_.length = s.workers_.length := by
  induction sched generalizing s with
  | nil => rfl
  | cons a rest ih =>
    unfold runSchedule
    cases hs : step cfg os s a with
    | none => exact ih s
    | some s' =>
      simp only
      rw [ih s']
      cases a with
      | enqueue =>
        simp only [step] at hs
        split_ifs at hs
        cases hs
        rfl
      | shutdown =>
        simp only [step] at hs
        split_ifs at hs
        cases hs
        rfl
      | worker k =>
        simp only [step] at hs
        cases hk : s.workers_.get? k with
        | none => rw [hk] at hs; cases hs
        | some w =>
          rw [hk] at hs
          exact workerStep_length cfg os s s' k w hs

/-- Once `runScan` has returned from a pool with at least one worker, every
unit has been taken from the queue and completed: the results are those of
the units in input order and the counters agree with them. -/
theorem Inv.final (cfg : ScanConfig) (os : Nat → ProbeAnswers) (s : PoolState) (p : Nat)
    (hinv : Inv cfg os s p) (hret : returned s = true) (hne : s.workers_ ≠ []) :
    s.tasks_ = [] ∧
    s.g_results = (List.range cfg.ports.length).map (unitResult cfg os) ∧
    s.g_scanned = cfg.ports.length ∧
    s.g_openCount = openEntries s.g_results := by
  obtain ⟨h1, h2, h3, h4, h5, h6, h7, h8, h9, h10, h11⟩ := hinv
  unfold returned at hret
  rw [Bool.and_eq_true, List.all_eq_true] at hret
  obtain ⟨hstop, hall⟩ := hret
  have hex : ∀ w ∈ s.workers_, w = Worker.exited := fun w hw => by
    simpa using hall w hw
  obtain ⟨w0, rest, hw0⟩ := List.exists_cons_of_ne_nil hne
  have hmem : Worker.exited ∈ s.workers_ := by
    have : w0 ∈ s.workers_ := by rw [hw0]; exact List.mem_cons_self _ _
    rw [← hex w0 this]; exact this
  have htasks := (h9 hmem).2
  have hnext := h5 hstop
  have hp : p = cfg.ports.length := by
    rw [htasks] at h3
    simp only [List.length_nil] at h3
    omega
  have hres : s.g_results = (List.range cfg.ports.length).map (unitResult cfg os) := by
    apply List.ext_getElem?
    intro i
    by_cases hi : i < cfg.ports.length
    · rcases h8 i (by omega) with ⟨w, hw, hh⟩ | hr
      · rw [hex w hw] at hh
        exact absurd hh (by simp [Worker.holds])
      · rw [hr, List.getElem?_map, List.getElem?_range hi]
        rfl
    · rw [List.getElem?_eq_none (by omega), List.getElem?_eq_none (by simp; omega)]
  have hu : (s.workers_.map Worker.uncounted).sum = 0 := by
    apply List.sum_eq_zero
    intro x hx
    obtain ⟨w, hw, rfl⟩ := List.mem_map.mp hx
    rw [hex w hw]; rfl
  have ho : (s.workers_.map (Worker.pendingOpen cfg os)).sum = 0 := by
    apply List.sum_eq_zero
    intro x hx
    obtain ⟨w, hw, rfl⟩ := List.mem_map.mp hx
    rw [hex w hw]; rfl
  refine ⟨htasks, hres, ?_, ?_⟩
  · rw [hu] at h10
    simp only [Nat.cast_zero, add_zero] at h10
    rw [h10, hp]
  · rw [ho] at h11
    simp only [Nat.cast_zero, add_zero] at h11
    rw [h11, hres, hp]
    unfold openEntries
    rw [List.countP_map]
    rfl

theorem unitResult_port (cfg : ScanConfig) (os : Nat → ProbeAnswers) (i : Nat) :
    (unitResult cfg os i).port = cfg.ports.getD i 0 :=
  scanPort_port _ _ _ _ _

/-- The pool of `runScan` has a worker when there is a port and the configured
concurrency is positive. -/
theorem runScanInit_workers_ne_nil (sizeBits : Nat) (cfg : ScanConfig) (hbits : 32 ≤ sizeBits)
    (hN : 1 ≤ cfg.ports.length) (hN' : cfg.ports.length < 2 ^ 31) (hC : 1 ≤ cfg.threads) :
    (runScanInit sizeBits cfg).workers_ ≠ [] := by
  have ht : toInt32 cfg.ports.length = cfg.ports.length := toInt32_of_lt _ hN'
  have hlt : ((cfg.ports.length : Nat) : Int) < 2 ^ 31 := by exact_mod_cast hN'
  have hm := toSizeT_of_lt sizeBits (min cfg.threads (cfg.ports.length : Int)) hbits
    (by omega) (by omega)
  intro h
  have hl := congrArg List.length h
  simp only [runScanInit, ThreadPool, List.length_replicate, List.length_nil, ht] at hl
  rw [hl] at hm
  simp only [Nat.cast_zero] at hm
  omega

/-! ## Progress of the scan -/

theorem workerStep_decreases (cfg : ScanConfig) (os : Nat → ProbeAnswers) (s s' : PoolState)
    (k : Nat) (w : Worker) (hk : s.workers_.get? k = some w)
    (hs : workerStep cfg os s k w = some s') : remainingSteps s' < remainingSteps s := by
  obtain ⟨pre, post, hw, hset⟩ := set_split s.workers_ k w hk
  obtain ⟨next, stop, tasks, workers, results, scanned, opened, total⟩ := s
  simp only at hw hset
  subst hw
  cases w with
  | waiting =>
    cases tasks with
    | nil =>
      simp only [workerStep] at hs
      by_cases hstop : stop = true
      · rw [if_pos hstop, hset] at hs
        cases hs
        simp [remainingSteps, Worker.weight]
      · rw [if_neg hstop] at hs
        cases hs
    | cons t rest =>
      simp only [workerStep, hset] at hs
      cases hs
      simp only [remainingSteps, List.map_append, List.map_cons, List.sum_append,
        List.sum_cons, Worker.weight, List.length_cons]
      omega
  | running t =>
    simp only [workerStep, hset] at hs
    cases hs
    simp only [remainingSteps, List.map_append, List.map_cons, List.sum_append,
      List.sum_cons, Worker.weight]
    omega
  | scanned t r =>
    simp only [workerStep, hset] at hs
    cases hs
    simp only [remainingSteps, List.map_append, List.map_cons, List.sum_append,
      List.sum_cons, Worker.weight]
    omega
  | counted t r =>
    simp only [workerStep, hset] at hs
    cases hs
    simp only [remainingSteps, List.map_append, List.map_cons, List.sum_append,
      List.sum_cons, Worker.weight]
    omega
  | exited =>
    simp only [workerStep] at hs
    cases hs

/-- Every action that is taken brings the scan closer to its end. -/
theorem step_decreases (cfg : ScanConfig) (os : Nat → ProbeAnswers) (s s' : PoolState)
    (a : Action) (hs : step cfg os s a = some s') : remainingSteps s' < remainingSteps s := by
  cases a with
  | enqueue =>
    simp only [step] at hs
    split_ifs at hs with hlt
    cases hs
    simp only [remainingSteps, List.length_append, List.length_singleton]
    push_cast
    omega
  | shutdown =>
    simp only [step] at hs
    split_ifs at hs with hg
    cases hs
    simp only [remainingSteps, hg.2]
    simp
  | worker k =>
    simp only [step] at hs
    cases hk : s.workers_.get? k with
    | none => rw [hk] at hs; cases hs
    | some w =>
      rw [hk] at hs
      exact workerStep_decreases cfg os s s' k w hk hs

/-- No deadlock: as long as `runScan` has not returned, some thread can take
a step. -/
theorem step_enabled (cfg : ScanConfig) (os : Nat → ProbeAnswers) (s : PoolState)
    (h : returned s = false) : ∃ a s', step cfg os s a = some s' := by
  suffices hsome : ∃ a, (step cfg os s a).isSome = true by
    obtain ⟨a, ha⟩ := hsome
    obtain ⟨s', hs'⟩ := Option.isSome_iff_exists.mp ha
    exact ⟨a, s', hs'⟩
  by_cases hlt : (s.next : Int) < s.g_totalPorts
  · exact ⟨Action.enqueue, by simp only [step, if_pos hlt, Option.isSome_some]⟩
  · by_cases hstop : s.stop_ = false
    · exact ⟨Action.shutdown, by
        simp only [step, if_pos (And.intro hlt hstop), Option.isSome_some]⟩
    · have hstop' : s.stop_ = true := by simpa using hstop
      unfold returned at h
      rw [hstop', Bool.true_and] at h
      have hex : ∃ w ∈ s.workers_, w ≠ Worker.exited := by
        by_contra hc
        push_neg at hc
        have : s.workers_.all (fun w => decide (w = Worker.exited)) = true := by
          rw [List.all_eq_true]
          intro w hw
          simpa using hc w hw
        rw [this] at h
        cases h
      obtain ⟨w, hw, hne⟩ := hex
      obtain ⟨k, hk, hkw⟩ := List.getElem_of_mem hw
      have hget : s.workers_.get? k = some w := by
        rw [List.get?_eq_getElem?, List.getElem?_eq_getElem hk, hkw]
      refine ⟨Action.worker k, ?_⟩
      simp only [step, hget]
      cases w with
      | waiting =>
        cases ht : s.tasks_ with
        | nil => simp only [workerStep, ht, if_pos hstop', Option.isSome_some]
        | cons t rest => simp only [workerStep, ht, Option.isSome_some]
      | running t => rfl
      | scanned t r => rfl
      | counted t r => rfl
      | exited => exact absurd rfl hne

/-- From every state the threads can be scheduled so that `runScan` returns. -/
theorem exists_schedule_returned (cfg : ScanConfig) (os : Nat → ProbeAnswers) (n : Nat) :
    ∀ s : PoolState, remainingSteps s ≤ n →
      ∃ sched, returned (runSchedule cfg os s sched) = true := by
  induction n with
  | zero =>
    intro s hs
    cases hr : returned s with
    | true => exact ⟨[], hr⟩
    | false =>
      obtain ⟨a, s', hstep⟩ := step_enabled cfg os s hr
      have := step_decreases cfg os s s' a hstep
      omega
  | succ n ih =>
    intro s hs
    cases hr : returned s with
    | true => exact ⟨[], hr⟩
    | false =>
      obtain ⟨a, s', hstep⟩ := step_enabled cfg os s hr
      have hd := step_decreases cfg os s s' a hstep
      obtain ⟨sched, hsched⟩ := ih s' (by omega)
      refine ⟨a :: sched, ?_⟩
      simp only [runSchedule, hstep]
      exact hsched

theorem runSchedule_append (cfg : ScanConfig) (os : Nat → ProbeAnswers) (s : PoolState)
    (sched more : List Action) :
    runSchedule cfg os s (sched ++ more) =
      runSchedule cfg os (runSchedule cfg os s sched) more := by
  induction sched generalizing s with
  | nil => rfl
  | cons a rest ih =>
    simp only [List.cons_append, runSchedule]
    cases step cfg os s a with
    | none => exact ih s
    | some s' => exact ih s'

/-- A run in which every action is taken has at most `remainingSteps` actions. -/
theorem runSchedule_bounded (cfg : ScanConfig) (os : Nat → ProbeAnswers)
    (sched : List Action) (s : PoolState)
    (htaken : ∀ pre a post, sched = pre ++ a :: post →
      step cfg os (runSchedule cfg os s pre) a ≠ none) :
    sched.length + remainingSteps (runSchedule cfg os s sched) ≤ remainingSteps s := by
  induction sched generalizing s with
  | nil => simp [runSchedule]
  | cons a rest ih =>
    cases hs : step cfg os s a with
    | none => exact absurd hs (htaken [] a rest rfl)
    | some s' =>
      have hd := step_decreases cfg os s s' a hs
      have := ih s' (fun pre b post hp => by
        have := htaken (a :: pre) b post (by rw [hp]; rfl)
        simpa only [runSchedule, hs] using this)
      simp only [runSchedule, hs, List.length_cons]
      omega

/-! ## The scan: the claims -/

/-- What holds once `runScan` has returned, for a positive concurrency. -/
theorem runScan_final (sizeBits : Nat) (cfg : ScanConfig) (os : Nat → ProbeAnswers)
    (sched : List Action) (hbits : 32 ≤ sizeBits) (hN : 1 ≤ cfg.ports.length)
    (hN' : cfg.ports.length < 2 ^ 31) (hC : 1 ≤ cfg.threads)
    (hret : returned (runScan sizeBits cfg os sched) = true) :
    (runScan sizeBits cfg os sched).tasks_ = [] ∧
    (runScan sizeBits cfg os sched).g_results =
      (List.range cfg.ports.length).map (unitResult cfg os) ∧
    (runScan sizeBits cfg os sched).g_scanned = cfg.ports.length ∧
    (runScan sizeBits cfg os sched).g_openCount =
      openEntries (runScan sizeBits cfg os sched).g_results := by
  obtain ⟨p, hinv⟩ := Inv.runSchedule cfg os sched _ 0 (Inv.init sizeBits cfg os hbits hN')
  refine Inv.final cfg os _ p hinv hret ?_
  intro h
  have hl := runSchedule_length cfg os sched (runScanInit sizeBits cfg)
  have h0 := runScanInit_workers_ne_nil sizeBits cfg hbits hN hN' hC
  unfold runScan at h
  rw [h] at hl
  exact h0 (List.length_eq_zero.mp hl.symm)

/-- C6: for a port list of `N >= 1` ports, a concurrency `C >= 1` and every
interleaving of the threads, once `runScan` has returned `g_results` has
exactly `N` entries, entry `i` is the result of the unit for `ports[i]` and
carries that port: one result per port, in the order of the input list.  And
`runScan` does return: whatever the threads have done so far, they can go on
so that it returns. -/
theorem runScan_results (sizeBits : Nat) (cfg : ScanConfig) (os : Nat → ProbeAnswers)
    (hbits : 32 ≤ sizeBits) (hN : 1 ≤ cfg.ports.length) (hN' : cfg.ports.length < 2 ^ 31)
    (hC : 1 ≤ cfg.threads) :
    (∀ sched, ∃ more, returned (runScan sizeBits cfg os (sched ++ more)) = true) ∧
    ∀ sched, returned (runScan sizeBits cfg os sched) = true →
      (runScan sizeBits cfg os sched).g_results.length = cfg.ports.length ∧
      (runScan sizeBits cfg os sched).g_results.map ScanResult.port = cfg.ports ∧
      ∀ i, i < cfg.ports.length →
        (runScan sizeBits cfg os sched).g_results[i]? = some (unitResult cfg os i) ∧
        (unitResult cfg os i).port = cfg.ports.getD i 0 := by
  constructor
  · intro sched
    obtain ⟨more, hmore⟩ := exists_schedule_returned cfg os _
      (runScan sizeBits cfg os sched) (le_refl _)
    refine ⟨more, ?_⟩
    unfold runScan at hmore ⊢
    rw [runSchedule_append]
    exact hmore
  · intro sched hret
    obtain ⟨_, hres, _, _⟩ := runScan_final sizeBits cfg os sched hbits hN hN' hC hret
    rw [hres]
    refine ⟨by simp, ?_, ?_⟩
    · apply List.ext_getElem?
      intro i
      by_cases hi : i < cfg.ports.length
      · simp only [List.map_map, List.getElem?_map, List.getElem?_range hi, Option.map_some',
          Function.comp_apply, unitResult_port]
        rw [List.getD_eq_getElem _ _ hi, List.getElem?_eq_getElem hi]
      · rw [List.getElem?_eq_none (by simp; omega), List.getElem?_eq_none (by omega)]
    · intro i hi
      refine ⟨?_, unitResult_port cfg os i⟩
      rw [List.getElem?_map, List.getElem?_range hi]
      rfl

/-- C6 on `demoConfig` under `demoSchedule`, in which the second unit completes
before the first. -/
theorem runScan_results_witness :
    returned (runScan 64 demoConfig demoAnswers demoSchedule) = true ∧
    (runScan 64 demoConfig demoAnswers demoSchedule).g_results.length = 2 ∧
    (runScan 64 demoConfig demoAnswers demoSchedule).g_results.map ScanResult.port =
      [22, 80] :=
  ⟨by decide,
   ((runScan_results 64 demoConfig demoAnswers (by decide) (by decide) (by decide)
      (by decide)).2 demoSchedule (by decide)).1,
   ((runScan_results 64 demoConfig demoAnswers (by decide) (by decide) (by decide)
      (by decide)).2 demoSchedule (by decide)).2.1⟩

/-- The barrier and the counters for a positive concurrency: once `runScan`
has returned, the queue is empty, no worker holds a unit, `g_scanned` is the
number of ports and `g_openCount` the number of open entries. -/
theorem runScan_barrier_of_pos_threads (sizeBits : Nat) (cfg : ScanConfig)
    (os : Nat → ProbeAnswers) (sched : List Action) (hbits : 32 ≤ sizeBits)
    (hN : 1 ≤ cfg.ports.length) (hN' : cfg.ports.length < 2 ^ 31) (hC : 1 ≤ cfg.threads)
    (hret : returned (runScan sizeBits cfg os sched) = true) :
    (runScan sizeBits cfg os sched).tasks_ = [] ∧
    (∀ w ∈ (runScan sizeBits cfg os sched).workers_, w = Worker.exited) ∧
    (runScan sizeBits cfg os sched).g_scanned = cfg.ports.length ∧
    (runScan sizeBits cfg os sched).g_openCount =
      openEntries (runScan sizeBits cfg os sched).g_results := by
  obtain ⟨h1, _, h3, h4⟩ := runScan_final sizeBits cfg os sched hbits hN hN' hC hret
  refine ⟨h1, ?_, h3, h4⟩
  unfold returned at hret
  rw [Bool.and_eq_true, List.all_eq_true] at hret
  intro w hw
  simpa using hret.2 w hw

/-- The barrier and the counters on `demoConfig` under `demoSchedule`. -/
theorem runScan_barrier_of_pos_threads_witness :
    (runScan 64 demoConfig demoAnswers demoSchedule).g_scanned = 2 ∧
    (runScan 64 demoConfig demoAnswers demoSchedule).g_openCount = 1 ∧
    openEntries (runScan 64 demoConfig demoAnswers demoSchedule).g_results = 1 :=
  ⟨(runScan_barrier_of_pos_threads 64 demoConfig demoAnswers demoSchedule (by decide)
      (by decide) (by decide) (by decide) (by decide)).2.2.1,
   by decide, by decide⟩

/-- C7 fails for the thread count 0, which `-t 0` yields: the pool has no
worker, the destructor has nothing to join, and `runScan` returns with both
units still in the queue, `g_scanned = 0` and untouched result slots. -/
theorem runScan_zero_threads :
    threadsOption "0".toList = .ok 0 ∧
    returned (runScan 64 { demoConfig with threads := 0 } demoAnswers
      [.enqueue, .enqueue, .shutdown]) = true ∧
    (runScan 64 { demoConfig with threads := 0 } demoAnswers
      [.enqueue, .enqueue, .shutdown]).tasks_ = [⟨0, 22⟩, ⟨1, 80⟩] ∧
    (runScan 64 { demoConfig with threads := 0 } demoAnswers
      [.enqueue, .enqueue, .shutdown]).g_scanned = 0 ∧
    (runScan 64 { demoConfig with threads := 0 } demoAnswers
      [.enqueue, .enqueue, .shutdown]).g_results = [default, default] := by
  decide

/-- C8 fails for a negative thread count, which `-t -1` yields: `std::min`
gives `-1` for one port and the constructor of the pool receives it as the
`size_t` value `2^64 - 1` (`2^32 - 1` with a 32-bit `size_t`), far above
`min(C, N)` and above the documented maximum of 500. -/
theorem runScan_negative_threads :
    threadsOption "-1".toList = .ok (-1) ∧
    min (-1 : Int) (([80] : List Int).length : Int) = -1 ∧
    (runScanInit 64 { ports := [80], threads := -1 }).workers_.length =
      18446744073709551615 ∧
    (runScanInit 32 { ports := [80], threads := -1 }).workers_.length = 4294967295 := by
  refine ⟨by decide, by decide, ?_, ?_⟩
  · simp only [runScanInit, ThreadPool, List.length_replicate]
    decide
  · simp only [runScanInit, ThreadPool, List.length_replicate]
    decide

/-- The worker count for a concurrency `C >= 0` and a port list of `N < 2^31`
ports: the constructor of the pool receives `min(C, N)` unchanged as a
`size_t` and starts that many workers, and no action of the scan changes that
number. -/
theorem runScan_worker_count (sizeBits : Nat) (cfg : ScanConfig) (hbits : 32 ≤ sizeBits)
    (hN : cfg.ports.length < 2 ^ 31) (hC : 0 ≤ cfg.threads) :
    ((toSizeT sizeBits (min cfg.threads (toInt32 cfg.ports.length)) : Nat) : Int) =
      min cfg.threads (cfg.ports.length : Int) ∧
    (((runScanInit sizeBits cfg).workers_.length : Nat) : Int) =
      min cfg.threads (cfg.ports.length : Int) ∧
    ∀ (os : Nat → ProbeAnswers) (sched : List Action),
      (((runScan sizeBits cfg os sched).workers_.length : Nat) : Int) =
        min cfg.threads (cfg.ports.length : Int) := by
  have ht : toInt32 cfg.ports.length = cfg.ports.length := toInt32_of_lt _ hN
  have hlt : ((cfg.ports.length : Nat) : Int) < 2 ^ 31 := by exact_mod_cast hN
  have hm := toSizeT_of_lt sizeBits (min cfg.threads (cfg.ports.length : Int)) hbits
    (by omega) (by omega)
  have hinit : (((runScanInit sizeBits cfg).workers_.length : Nat) : Int) =
      min cfg.threads (cfg.ports.length : Int) := by
    simp only [runScanInit, ThreadPool, List.length_replicate, ht]
    exact hm
  refine ⟨by rw [ht]; exact hm, hinit, ?_⟩
  intro os sched
  unfold runScan
  rw [runSchedule_length]
  exact hinit

/-- The worker count on `demoConfig` (two threads, two ports) and with 500
threads for two ports. -/
theorem runScan_worker_count_witness :
    (((runScanInit 64 demoConfig).workers_.length : Nat) : Int) = 2 ∧
    (((runScanInit 64 { demoConfig with threads := 500 }).workers_.length : Nat) : Int) = 2 :=
  ⟨(runScan_worker_count 64 demoConfig (by decide) (by decide) (by decide)).2.1.trans
      (by decide),
   (runScan_worker_count 64 { demoConfig with threads := 500 } (by decide) (by decide)
      (by decide)).2.1.trans (by decide)⟩

/-! ## The banner reader -/

/-- When the connection succeeds and `recv` delivers at least one byte,
`grabBanner` returns the clean-up of the received bytes. -/
theorem grabBanner_receivedAnswers (bytes : List Nat) (ip : String) (port timeoutMs : Int)
    (hne : 1 ≤ bytes.length) :
    grabBanner (receivedAnswers bytes) ip port timeoutMs = sanitizeBanner bytes := by
  have hpos : ((bytes.length : Nat) : Int) > 0 := by omega
  simp only [grabBanner, receivedAnswers, Bool.true_eq_false, if_false, ne_eq,
    not_true_eq_false, if_pos hpos, Int.toNat_ofNat, List.take_left']

theorem toSignedChar_of_lt (b : Nat) (h : b < 256) :
    toSignedChar b = if b < 128 then (b : Int) else (b : Int) - 256 := by
  unfold toSignedChar
  rw [Nat.mod_eq_of_lt h]

/-- On bytes the loop of `grabBanner` computes the text `s` of the
specification's wording. -/
theorem cleanBytes_eq_claimedClean (bytes : List Nat) (h : ∀ b ∈ bytes, b < 256) :
    cleanBytes bytes = claimedClean bytes := by
  induction bytes with
  | nil => rfl
  | cons b bs ih =>
    have hb : b < 256 := h b (List.mem_cons_self _ _)
    have ih' := ih (fun x hx => h x (List.mem_cons_of_mem _ hx))
    have hs := toSignedChar_of_lt b hb
    unfold cleanBytes claimedClean
    rw [List.filterMap_cons]
    by_cases h1 : b = 13 ∨ b = 10
    · have h1' : toSignedChar b = 10 ∨ toSignedChar b = 13 := by
        rw [hs]; split_ifs <;> omega
      rw [if_pos h1', if_pos h1, ih']
      rfl
    · have h1' : ¬ (toSignedChar b = 10 ∨ toSignedChar b = 13) := by
        rw [hs]; split_ifs <;> omega
      rw [if_neg h1', if_neg h1]
      by_cases h2 : 32 ≤ b ∧ b ≤ 126
      · have h2' : 32 ≤ toSignedChar b ∧ toSignedChar b < 127 := by
          rw [hs]; split_ifs <;> omega
        rw [if_pos h2', if_pos h2, ih']
        rfl
      · have h2' : ¬ (32 ≤ toSignedChar b ∧ toSignedChar b < 127) := by
          rw [hs]; split_ifs <;> omega
        rw [if_neg h2', if_neg h2, ih']
        rfl

/-- Every character of the cleaned text is printable ASCII. -/
theorem mem_claimedClean (bytes : List Nat) (c : Nat) (h : c ∈ claimedClean bytes) :
    32 ≤ c ∧ c ≤ 126 := by
  unfold claimedClean at h
  rw [List.mem_filterMap] at h
  obtain ⟨b, _, hb⟩ := h
  split_ifs at hb with h1 h2
  · cases hb; omega
  · cases hb; exact h2

/-- A printable byte other than the space stays in the cleaned text. -/
theorem mem_claimedClean_of_printable (bytes : List Nat) (b : Nat) (hb : b ∈ bytes)
    (h : 33 ≤ b ∧ b ≤ 126) : b ∈ claimedClean bytes := by
  unfold claimedClean
  rw [List.mem_filterMap]
  refine ⟨b, hb, ?_⟩
  rw [if_neg (by omega), if_pos (by omega)]

theorem findLastNotOf_eq_none (c : Nat) (l : List Nat) (h : findLastNotOf c l = none) :
    ∀ x ∈ l, x = c := by
  induction l with
  | nil => intro x hx; cases hx
  | cons b bs ih =>
    unfold findLastNotOf at h
    cases hr : findLastNotOf c bs with
    | some i => rw [hr] at h; cases h
    | none =>
      rw [hr] at h
      simp only at h
      split_ifs at h with hbc
      intro x hx
      rcases List.mem_cons.mp hx with rfl | hx
      · exact hbc
      · exact ih hr x hx

/-- The index `find_last_not_of` returns splits the text into a part that ends
with a character other than `c` and a run of `c`. -/
theorem findLastNotOf_eq_some (c : Nat) (l : List Nat) (i : Nat)
    (h : findLastNotOf c l = some i) :
    ∃ pre x post, l = pre ++ x :: post ∧ pre.length = i ∧ x ≠ c ∧ ∀ y ∈ post, y = c := by
  induction l generalizing i with
  | nil => cases h
  | cons b bs ih =>
    unfold findLastNotOf at h
    cases hr : findLastNotOf c bs with
    | some j =>
      rw [hr] at h
      cases h
      obtain ⟨pre, x, post, h1, h2, h3, h4⟩ := ih j hr
      exact ⟨b :: pre, x, post, by rw [h1]; rfl, by simp [h2], h3, h4⟩
    | none =>
      rw [hr] at h
      simp only at h
      split_ifs at h with hbc
      cases h
      exact ⟨[], b, bs, rfl, rfl, hbc, findLastNotOf_eq_none c bs hr⟩

theorem findLastNotOf_ne_none (c : Nat) (l : List Nat) (x : Nat) (hx : x ∈ l) (hxc : x ≠ c) :
    findLastNotOf c l ≠ none :=
  fun h => hxc (findLastNotOf_eq_none c l h x hx)

theorem dropTrailingSpaces_split (pre post : List Nat) (x : Nat) (hx : x ≠ 32)
    (hpost : ∀ y ∈ post, y = 32) :
    dropTrailingSpaces (pre ++ x :: post) = pre ++ [x] := by
  unfold dropTrailingSpaces
  rw [List.reverse_append, List.reverse_cons, List.append_assoc,
    List.dropWhile_append_of_pos (by
      intro a ha
      simpa using hpost a (List.mem_reverse.mp ha))]
  rw [List.singleton_append, List.dropWhile_cons_of_neg (by simpa using hx)]
  simp

/-- The trim step of `grabBanner` on a text with a character other than the
space: the trailing spaces are removed. -/
theorem take_findLastNotOf (l : List Nat) (i : Nat) (h : findLastNotOf 32 l = some i) :
    l.take (i + 1) = dropTrailingSpaces l ∧
    ∃ pre x, dropTrailingSpaces l = pre ++ [x] ∧ x ≠ 32 := by
  obtain ⟨pre, x, post, h1, h2, h3, h4⟩ := findLastNotOf_eq_some 32 l i h
  have hd := dropTrailingSpaces_split pre post x h3 h4
  rw [← h1] at hd
  refine ⟨?_, pre, x, hd, h3⟩
  rw [hd, h1, ← h2]
  have : pre ++ x :: post = (pre ++ [x]) ++ post := by simp
  rw [this]
  exact List.take_left' (by simp)

theorem sanitizeBanner_of_some (banner : List Nat) (i : Nat)
    (h : findLastNotOf 32 (cleanBytes banner) = some i) :
    sanitizeBanner banner =
      if ((cleanBytes banner).take (i + 1)).length > 80 then
        ((cleanBytes banner).take (i + 1)).take 80 ++ truncationMarker
      else (cleanBytes banner).take (i + 1) := by
  unfold sanitizeBanner
  simp only [h, truncationMarker]

theorem sanitizeBanner_of_none (banner : List Nat)
    (h : findLastNotOf 32 (cleanBytes banner) = none) :
    sanitizeBanner banner =
      if (cleanBytes banner).length > 80 then
        (cleanBytes banner).take 80 ++ truncationMarker
      else cleanBytes banner := by
  unfold sanitizeBanner
  simp only [h, truncationMarker]

/-- The clean-up is the truncation of a part `clean` of the cleaned bytes. -/
theorem sanitizeBanner_cases (banner : List Nat) :
    ∃ clean : List Nat, (∀ c ∈ clean, c ∈ cleanBytes banner) ∧
      sanitizeBanner banner =
        if clean.length > 80 then clean.take 80 ++ truncationMarker else clean := by
  cases hf : findLastNotOf 32 (cleanBytes banner) with
  | none => exact ⟨cleanBytes banner, fun _ hc => hc, sanitizeBanner_of_none banner hf⟩
  | some i =>
    exact ⟨(cleanBytes banner).take (i + 1), fun _ hc => List.mem_of_mem_take hc,
      sanitizeBanner_of_some banner i hf⟩

/-- The clean-up of received bytes that contain a printable character other
than the space, in the specification's words. -/
theorem sanitizeBanner_eq_claimedBanner (bytes : List Nat) (hb : ∀ b ∈ bytes, b < 256)
    (hp : ∃ b ∈ bytes, 33 ≤ b ∧ b ≤ 126) :
    sanitizeBanner bytes = claimedBanner bytes ∧
    ∃ pre x, dropTrailingSpaces (claimedClean bytes) = pre ++ [x] ∧ x ≠ 32 := by
  obtain ⟨b, hbm, hb33⟩ := hp
  have hmem := mem_claimedClean_of_printable bytes b hbm hb33
  have hce := cleanBytes_eq_claimedClean bytes hb
  cases hf : findLastNotOf 32 (cleanBytes bytes) with
  | none =>
    rw [hce] at hf
    exact absurd hf (findLastNotOf_ne_none 32 _ b hmem (by omega))
  | some i =>
    rw [sanitizeBanner_of_some bytes i hf]
    rw [hce] at hf ⊢
    obtain ⟨ht, hlast⟩ := take_findLastNotOf _ i hf
    refine ⟨?_, hlast⟩
    unfold claimedBanner
    simp only [ht]
    by_cases hlen : (dropTrailingSpaces (claimedClean bytes)).length ≤ 80
    · rw [if_neg (by omega), if_pos hlen]
    · rw [if_pos (by omega), if_neg hlen]

/-- C11 as stated fails: for 81 received bytes `A` the returned banner has 83
characters, the first 80 bytes followed by the marker `"..."`. -/
theorem grabBanner_length_counterexample :
    (List.replicate 81 65).length = 81 ∧
    (∀ b ∈ List.replicate 81 65, b < 256) ∧
    (grabBanner (receivedAnswers (List.replicate 81 65)) "127.0.0.1" 22 1000).length = 83 ∧
    grabBanner (receivedAnswers (List.replicate 81 65)) "127.0.0.1" 22 1000 =
      List.replicate 80 65 ++ truncationMarker := by
  decide

/-- C11, amended: for every non-empty received byte sequence (so also for
every one of 1 to 511 bytes) the returned banner has at most 83 characters: at most 80 characters of text, and
when it is longer than 80 it is 80 characters of text followed by the
three-character marker `"..."`; every character of it is printable ASCII
(code 32 to 126). -/
theorem grabBanner_length_printable (bytes : List Nat) (ip : String) (port timeoutMs : Int)
    (hne : 1 ≤ bytes.length) (hb : ∀ b ∈ bytes, b < 256) :
    (grabBanner (receivedAnswers bytes) ip port timeoutMs).length ≤ 83 ∧
    (80 < (grabBanner (receivedAnswers bytes) ip port timeoutMs).length →
      ∃ text : List Nat, text.length = 80 ∧
        grabBanner (receivedAnswers bytes) ip port timeoutMs = text ++ truncationMarker) ∧
    ∀ c ∈ grabBanner (receivedAnswers bytes) ip port timeoutMs, 32 ≤ c ∧ c ≤ 126 := by
  rw [grabBanner_receivedAnswers bytes ip port timeoutMs hne]
  obtain ⟨clean, hsub, heq⟩ := sanitizeBanner_cases bytes
  rw [heq]
  have hmem : ∀ c ∈ clean, 32 ≤ c ∧ c ≤ 126 := by
    intro c hc
    have := hsub c hc
    rw [cleanBytes_eq_claimedClean bytes hb] at this
    exact mem_claimedClean bytes c this
  by_cases hlen : clean.length > 80
  · rw [if_pos hlen]
    have h80 : (clean.take 80).length = 80 := by
      rw [List.length_take]; omega
    refine ⟨?_, ?_, ?_⟩
    · rw [List.length_append, h80]; decide
    · intro _
      exact ⟨clean.take 80, h80, rfl⟩
    · intro c hc
      rcases List.mem_append.mp hc with hc | hc
      · exact hmem c (List.mem_of_mem_take hc)
      · have : c = 46 := by simpa [truncationMarker] using hc
        omega
  · rw [if_neg hlen]
    refine ⟨by omega, ?_, hmem⟩
    intro h
    omega

/-- C11, amended, at the bytes of `"SSH-2.0\r\n"` with a bell and a byte 200
in between. -/
theorem grabBanner_length_printable_witness :
    grabBanner (receivedAnswers [83, 83, 72, 45, 7, 50, 46, 200, 48, 13, 10]) "127.0.0.1" 22
      1000 = [83, 83, 72, 45, 50, 46, 48] ∧
    (grabBanner (receivedAnswers [83, 83, 72, 45, 7, 50, 46, 200, 48, 13, 10]) "127.0.0.1" 22
      1000).length ≤ 83 ∧
    ∀ c ∈ grabBanner (receivedAnswers [83, 83, 72, 45, 7, 50, 46, 200, 48, 13, 10])
      "127.0.0.1" 22 1000, 32 ≤ c ∧ c ≤ 126 :=
  ⟨by decide,
   (grabBanner_length_printable [83, 83, 72, 45, 7, 50, 46, 200, 48, 13, 10] "127.0.0.1" 22
      1000 (by decide) (by decide)).1,
   (grabBanner_length_printable [83, 83, 72, 45, 7, 50, 46, 200, 48, 13, 10] "127.0.0.1" 22
      1000 (by decide) (by decide)).2.2⟩

/-- C12: for every received byte sequence that contains a printable ASCII
character other than the space, `grabBanner` returns exactly the banner of the
specification's wording: with `s` the bytes in order, CR and LF replaced by a
space and the other bytes outside 32..126 dropped, and `t` the text `s`
without its trailing spaces, the result is `t` when `t` has at most 80
characters and otherwise the first 80 characters of `t` followed by `"..."`. -/
theorem grabBanner_eq_claimedBanner (bytes : List Nat) (ip : String) (port timeoutMs : Int)
    (hne : 1 ≤ bytes.length) (hb : ∀ b ∈ bytes, b < 256)
    (hp : ∃ b ∈ bytes, 33 ≤ b ∧ b ≤ 126) :
    grabBanner (receivedAnswers bytes) ip port timeoutMs = claimedBanner bytes := by
  rw [grabBanner_receivedAnswers bytes ip port timeoutMs hne]
  exact (sanitizeBanner_eq_claimedBanner bytes hb hp).1

/-- C12 at the bytes of `"220 ftp ready  \r\n"` followed by a NUL. -/
theorem grabBanner_eq_claimedBanner_witness :
    claimedBanner [50, 50, 48, 32, 102, 116, 112, 32, 114, 101, 97, 100, 121, 32, 32, 13, 10, 0]
      = [50, 50, 48, 32, 102, 116, 112, 32, 114, 101, 97, 100, 121] ∧
    grabBanner (receivedAnswers
        [50, 50, 48, 32, 102, 116, 112, 32, 114, 101, 97, 100, 121, 32, 32, 13, 10, 0])
      "127.0.0.1" 21 1000 =
      claimedBanner [50, 50, 48, 32, 102, 116, 112, 32, 114, 101, 97, 100, 121, 32, 32, 13, 10, 0] :=
  ⟨by decide,
   grabBanner_eq_claimedBanner
    [50, 50, 48, 32, 102, 116, 112, 32, 114, 101, 97, 100, 121, 32, 32, 13, 10, 0]
    "127.0.0.1" 21 1000 (by decide) (by decide) ⟨50, by decide, by decide⟩⟩

/-- The trailing spaces are trimmed when the received bytes contain a
printable character other than the space: the banner is then not empty and
does not end with a space. -/
theorem grabBanner_trimmed_of_printable (bytes : List Nat) (ip : String)
    (port timeoutMs : Int) (hne : 1 ≤ bytes.length) (hb : ∀ b ∈ bytes, b < 256)
    (hp : ∃ b ∈ bytes, 33 ≤ b ∧ b ≤ 126) :
    grabBanner (receivedAnswers bytes) ip port timeoutMs ≠ [] ∧
    (grabBanner (receivedAnswers bytes) ip port timeoutMs).getLast? ≠ some 32 := by
  rw [grabBanner_receivedAnswers bytes ip port timeoutMs hne]
  obtain ⟨heq, pre, x, ht, hx⟩ := sanitizeBanner_eq_claimedBanner bytes hb hp
  rw [heq]
  unfold claimedBanner
  simp only [ht, truncationMarker]
  split_ifs with hlen
  · refine ⟨by simp, ?_⟩
    rw [List.getLast?_concat]
    intro h
    exact hx (Option.some.inj h)
  · refine ⟨by simp, ?_⟩
    have : List.take 80 (pre ++ [x]) ++ [46, 46, 46] =
        (List.take 80 (pre ++ [x]) ++ [46, 46]) ++ [46] := by simp
    rw [this, List.getLast?_concat]
    decide

/-- The trimmed case at the bytes of `"OK \r\n"`. -/
theorem grabBanner_trimmed_of_printable_witness :
    grabBanner (receivedAnswers [79, 75, 32, 13, 10]) "127.0.0.1" 25 1000 = [79, 75] ∧
    (grabBanner (receivedAnswers [79, 75, 32, 13, 10]) "127.0.0.1" 25 1000).getLast? ≠
      some 32 :=
  ⟨by decide,
   (grabBanner_trimmed_of_printable [79, 75, 32, 13, 10] "127.0.0.1" 25 1000 (by decide)
      (by decide) ⟨79, by decide, by decide⟩).2⟩

/-- C13 fails when the peer sends only CR and LF: the cleaned text is two
spaces, `find_last_not_of` returns `npos`, the trim is skipped and the banner
returned is the two spaces: not empty, and ending with a space. -/
theorem grabBanner_blank_untrimmed :
    cleanBytes [13, 10] = [32, 32] ∧
    findLastNotOf 32 [32, 32] = none ∧
    grabBanner (receivedAnswers [13, 10]) "127.0.0.1" 22 1000 = [32, 32] ∧
    grabBanner (receivedAnswers [13, 10]) "127.0.0.1" 22 1000 ≠ [] ∧
    (grabBanner (receivedAnswers [13, 10]) "127.0.0.1" 22 1000).getLast? = some 32 := by
  decide

end PortScanner
